import Mathlib

/-!
# enrichContact.js : a shallow embedding

The serverless function `enrichContact` reads a contact from the record store,
derives a company profile from the e-mail domain and a seniority / department
pair from the job title, and writes the derived company fields back.

JavaScript strings are modelled as lists of characters (`Str`), `undefined` and
`null` as `none`.  The two JSON data files `companies.json` and `jobTitles.json`
are inputs of the model, and so is the built-in `String.prototype.toLowerCase`,
whose Unicode tables are not reproduced: every statement below holds for any
lower-casing function.
-/

set_option autoImplicit false

namespace EnrichContact

/-! ## Strings and the built-ins used by the source -/

/-- A JavaScript string. -/
abbrev Str := List Char

/-- Truthiness of a value that is a string, `undefined` or `null`: only a
non-empty string is truthy. -/
def truthy : Option Str → Bool
  | none => false
  | some s => !s.isEmpty

/-- The expression `x || d` for `x` a string, `undefined` or `null`. -/
def orElse (x : Option Str) (d : Str) : Str :=
  match x with
  | none => d
  | some s => if s.isEmpty then d else s

/-- The call `s.split(sep)` for a one-character separator: the segments between
the occurrences of `sep`; never the empty array. -/
def split (sep : Char) : Str → List Str
  | [] => [[]]
  | c :: cs =>
    if c = sep then [] :: split sep cs
    else
      match split sep cs with
      | [] => [[c]]
      | seg :: segs => (c :: seg) :: segs

/-- The call `s.includes(k)`: `k` occurs in `s` as a contiguous substring. -/
def includes : Str → Str → Bool
  | [], k => List.isPrefixOf k []
  | c :: cs, k => List.isPrefixOf k (c :: cs) || includes cs k

/-- The call `s.replace(pattern, replacement)` for a string pattern and a
replacement without `$`: only the first occurrence of the pattern, wherever it
stands, is replaced. -/
def replace (pattern replacement : Str) : Str → Str
  | [] => if List.isPrefixOf pattern [] then replacement else []
  | c :: cs =>
    if List.isPrefixOf pattern (c :: cs) then replacement ++ (c :: cs).drop pattern.length
    else c :: replace pattern replacement cs

/-- White space and line terminators of ECMAScript, the characters that
`String.prototype.trim` removes. -/
def isWhiteSpace (c : Char) : Bool :=
  let n := c.toNat
  n = 0x09 || n = 0x0A || n = 0x0B || n = 0x0C || n = 0x0D || n = 0x20 || n = 0xA0 ||
  n = 0x1680 || (0x2000 ≤ n && n ≤ 0x200A) || n = 0x2028 || n = 0x2029 || n = 0x202F ||
  n = 0x205F || n = 0x3000 || n = 0xFEFF

/-- The call `s.trim()`. -/
def trim (s : Str) : Str :=
  ((s.dropWhile isWhiteSpace).reverse.dropWhile isWhiteSpace).reverse

/-! ## Data: `companies.json`, `jobTitles.json` -/

/-- An entry of `companies.json`; `{}` is the profile without any field. -/
structure CompanyProfile where
  name : Option Str := none
  industry : Option Str := none
  size : Option Str := none
  location : Option Str := none
  deriving DecidableEq

/-- The own properties of the object `companies`, the keys of the JSON file:
`companies k` is the entry stored under `k`, `none` when `k` is not a key of the
file. What the property read `companies[k]` returns is `readCompany`. -/
abbrev CompanyTable := Str → Option CompanyProfile

/-- The methods that a plain object inherits from `Object.prototype`, apart
from `constructor`. The `name` of each is its property name. -/
def inheritedFunctionNames : List Str :=
  ["hasOwnProperty".toList, "isPrototypeOf".toList, "propertyIsEnumerable".toList,
   "toLocaleString".toList, "toString".toList, "valueOf".toList,
   "__defineGetter__".toList, "__defineSetter__".toList,
   "__lookupGetter__".toList, "__lookupSetter__".toList]

/-- The properties that a plain object inherits from `Object.prototype`, each
value seen through the four fields the program reads of it: `constructor` is the
function `Object`, whose `name` is `Object`; a method has its property name as
`name`; `__proto__` is `Object.prototype` itself, which has no `name`. None of
them has `industry`, `size` or `location`. All of them are truthy. -/
def inheritedProperty (key : Str) : Option CompanyProfile :=
  if key = "constructor".toList then some { name := some "Object".toList }
  else if key = "__proto__".toList then some {}
  else if key ∈ inheritedFunctionNames then some { name := some key }
  else none

/-- The property read `companies[key]` on the plain object `companies`: the own
property when `key` is a key of the file, else the inherited one, else
`undefined`. -/
def readCompany (companies : CompanyTable) (key : Str) : Option CompanyProfile :=
  match companies key with
  | some profile => some profile
  | none => inheritedProperty key

/-- The data model of a profile: a field is absent or a non-empty string. -/
def CompanyProfile.obeysDataModel (p : CompanyProfile) : Prop :=
  p.name ≠ some [] ∧ p.industry ≠ some [] ∧ p.size ≠ some [] ∧ p.location ≠ some []

/-- An entry of `jobTitles.patterns`. -/
structure TitlePattern where
  keywords : List Str
  seniority : Str
  department : Str
  deriving DecidableEq

/-- The object literal `{ seniority, department }` returned by `enrichJobTitle`. -/
structure Labels where
  seniority : Str
  department : Str
  deriving DecidableEq

/-- The result of `enrichJobTitle`: `none` is the object `{}`. -/
abbrev JobData := Option Labels

/-! ## extractDomain (lines 107-111) -/

/-- The function `extractDomain(email)`; `none` is `null`. -/
def extractDomain (toLowerCase : Str → Str) (email : Option Str) : Option Str :=
  if !truthy email then none
  else
    let parts := split '@' (email.getD [])
    if parts.length = 2 then (parts.get? 1).map toLowerCase else none

/-! ## enrichCompanyData (lines 114-130) -/

/-- The function `enrichCompanyData(domain)`. What `companies[domain]` finds, an
entry of the table or an inherited property, is an object and so truthy. -/
def enrichCompanyData (companies : CompanyTable) (domain : Option Str) : CompanyProfile :=
  if !truthy domain then {}
  else
    let domain := domain.getD []
    match readCompany companies domain with
    | some profile => profile
    | none =>
      let cleanDomain := replace "www.".toList [] domain
      match readCompany companies cleanDomain with
      | some profile => profile
      | none => {}

/-! ## enrichJobTitle (lines 133-151) -/

/-- The inner loop of `enrichJobTitle` over the keywords of one pattern: `some`
is the value returned from inside the loop, `none` means the loop ran out. -/
def scanKeywords (lowerTitle : Str) (pattern : TitlePattern) : List Str → Option Labels
  | [] => none
  | keyword :: rest =>
    if includes lowerTitle keyword then
      some { seniority := pattern.seniority, department := pattern.department }
    else scanKeywords lowerTitle pattern rest

/-- The outer loop of `enrichJobTitle` over the patterns; running out of
patterns reaches the final `return {}`. -/
def scanPatterns (lowerTitle : Str) : List TitlePattern → JobData
  | [] => none
  | pattern :: rest =>
    match scanKeywords lowerTitle pattern pattern.keywords with
    | some found => some found
    | none => scanPatterns lowerTitle rest

/-- The function `enrichJobTitle(jobTitle)`. -/
def enrichJobTitle (toLowerCase : Str → Str) (patterns : List TitlePattern)
    (jobTitle : Option Str) : JobData :=
  if !truthy jobTitle then none
  else
    let lowerTitle := toLowerCase (jobTitle.getD [])
    scanPatterns lowerTitle patterns

/-- Some keyword of the pattern occurs in the lower-cased title. -/
def TitlePattern.hits (pattern : TitlePattern) (lowerTitle : Str) : Prop :=
  ∃ keyword ∈ pattern.keywords, keyword <:+: lowerTitle

/-! ## main (lines 5-104) -/

/-- A plain object with string values, as an ordered list of its own
properties. -/
abbrev Obj := List (String × Str)

/-- The assignment `o[key] = value`. -/
def Obj.set (o : Obj) (key : String) (value : Str) : Obj :=
  if o.any (fun kv => kv.1 == key) then
    o.map (fun kv => if kv.1 == key then (key, value) else kv)
  else o ++ [(key, value)]

/-- The call `Object.keys(o)`. -/
def Obj.keys (o : Obj) : List String := o.map Prod.fst

/-- The property read `o[key]`. -/
def Obj.get (o : Obj) (key : String) : Option Str := o.lookup key

/-- Lines 40-54 of `main`: the update payload built from the company data. -/
def buildUpdateData (companyData : CompanyProfile) : Obj :=
  let updateData : Obj := []
  let updateData :=
    if truthy companyData.name then updateData.set "company" (companyData.name.getD [])
    else updateData
  let updateData :=
    if truthy companyData.industry then updateData.set "industry" (companyData.industry.getD [])
    else updateData
  let updateData :=
    if truthy companyData.location then
      updateData.set "city" (trim ((split ',' (companyData.location.getD [])).headD []))
    else updateData
  updateData

/-- Lines 56-60 of `main`: the enrichment note; `isoNow` is the value of
`new Date().toISOString()`. -/
def buildEnrichmentNote (isoNow : Str) (jobData : JobData) (companyData : CompanyProfile) : Str :=
  "Enriched on ".toList ++ (split 'T' isoNow).headD [] ++ ". ".toList ++
  "Seniority: ".toList ++ orElse (jobData.map Labels.seniority) "Unknown".toList ++ ", ".toList ++
  "Department: ".toList ++ orElse (jobData.map Labels.department) "Unknown".toList ++ ", ".toList ++
  "Company Size: ".toList ++ orElse companyData.size "Unknown".toList

/-- The object `context.parameters`. -/
structure Parameters where
  contactId : Option Str := none
  deriving DecidableEq

/-- The argument of `main`; `{}` has no `parameters`. -/
structure Context where
  parameters : Option Parameters := none
  deriving DecidableEq

/-- The `properties` of a contact as the record reader returns them. -/
structure Contact where
  email : Option Str := none
  jobtitle : Option Str := none
  firstname : Option Str := none
  lastname : Option Str := none
  company : Option Str := none
  industry : Option Str := none
  city : Option Str := none
  deriving DecidableEq

/-- A call to the record store. -/
inductive Call where
  | getById (contactId : Str) (properties : List String)
  | update (contactId : Str) (properties : Obj)
  deriving DecidableEq

/-- Whether the call is a `getById`. -/
def Call.isGetById : Call → Bool
  | .getById _ _ => true
  | .update _ _ => false

/-- Whether the call is an `update`. -/
def Call.isUpdate : Call → Bool
  | .getById _ _ => false
  | .update _ _ => true

/-- The `additionalInfo` of a successful response. -/
structure AdditionalInfo where
  seniority : Option Str
  department : Option Str
  companySize : Option Str
  enrichmentNote : Str
  deriving DecidableEq

/-- The four shapes of `body` that `main` returns. -/
inductive Body where
  | invalidInput (error : Str)
  | noEnrichmentFound (success : Bool) (message : Str) (domain : Option Str)
  | enriched (success : Bool) (message : Str) (enrichedData : Obj)
      (additionalInfo : AdditionalInfo)
  | failure (success : Bool) (error : Str)
  deriving DecidableEq

/-- The object `{ statusCode, body }` that `main` returns. -/
structure Response where
  statusCode : Nat
  body : Body
  deriving DecidableEq

/-- How a call of the async function `main` ends: its promise resolves with a
response, or an exception escapes and the promise rejects. -/
inductive Outcome where
  | returned (response : Response)
  | threwTypeError
  deriving DecidableEq

/-- What `main` runs against: the two data files, the built-in lower-casing,
the clock and the record store. A failing store call carries `error.message`. -/
structure Env where
  companies : CompanyTable
  patterns : List TitlePattern
  toLowerCase : Str → Str
  isoNow : Str
  getById : Str → List String → Except Str Contact
  update : Str → Obj → Except Str Unit

/-- The property list passed to `getById`. -/
def requestedProperties : List String :=
  ["email", "jobtitle", "firstname", "lastname", "company", "industry", "city"]

/-- The values computed by lines 28-60 of `main`. -/
structure Enrichment where
  domain : Option Str
  companyData : CompanyProfile
  jobData : JobData
  updateData : Obj
  enrichmentNote : Str
  deriving DecidableEq

/-- Lines 28-60 of `main`: everything computed between the fetch and the test
for an empty payload. -/
def enrich (env : Env) (contact : Contact) : Enrichment :=
  let email := contact.email
  let jobTitle := orElse contact.jobtitle []
  let domain := extractDomain env.toLowerCase email
  let companyData := enrichCompanyData env.companies domain
  let jobData := enrichJobTitle env.toLowerCase env.patterns (some jobTitle)
  let updateData := buildUpdateData companyData
  let enrichmentNote := buildEnrichmentNote env.isoNow jobData companyData
  { domain, companyData, jobData, updateData, enrichmentNote }

/-- The test of line 63 negated: there is something to write. -/
def Enrichment.hasUpdates (e : Enrichment) : Bool :=
  !(e.updateData.keys.length = 0)

/-- The exported function `main(context = {})`, with the calls it makes to the
record store in the order it makes them. Destructuring `context.parameters`
stands before the `try` block, so its exception escapes. -/
def main (env : Env) (context : Option Context) : Outcome × List Call :=
  let context : Context := context.getD {}
  match context.parameters with
  | none => (.threwTypeError, [])
  | some parameters =>
    let contactId := parameters.contactId
    if !truthy contactId then
      (.returned ⟨400, .invalidInput "Contact ID is required".toList⟩, [])
    else
      let contactId := contactId.getD []
      let fetch := Call.getById contactId requestedProperties
      match env.getById contactId requestedProperties with
      | .error message => (.returned ⟨500, .failure false message⟩, [fetch])
      | .ok contact =>
        let e := enrich env contact
        if e.updateData.keys.length = 0 then
          (.returned ⟨200, .noEnrichmentFound true
            "No enrichment data found for this contact".toList e.domain⟩, [fetch])
        else
          let write := Call.update contactId e.updateData
          match env.update contactId e.updateData with
          | .error message => (.returned ⟨500, .failure false message⟩, [fetch, write])
          | .ok _ =>
            (.returned ⟨200, .enriched true "Contact enriched successfully".toList e.updateData
              { seniority := e.jobData.map Labels.seniority
                department := e.jobData.map Labels.department
                companySize := e.companyData.size
                enrichmentNote := e.enrichmentNote }⟩, [fetch, write])

/-- The invocation of `main` with `context.parameters.contactId` set. -/
def invoke (env : Env) (contactId : Option Str) : Outcome × List Call :=
  main env (some { parameters := some { contactId := contactId } })

/-! ## Notions used in the statements -/

/-- The string `t` is `s` with its leading and trailing white space removed. -/
def IsTrimOf (t s : Str) : Prop :=
  ∃ lead trail : Str, s = lead ++ t ++ trail ∧
    (∀ c ∈ lead, isWhiteSpace c = true) ∧ (∀ c ∈ trail, isWhiteSpace c = true) ∧
    (∀ c, t.head? = some c → isWhiteSpace c = false) ∧
    (∀ c, t.getLast? = some c → isWhiteSpace c = false)

/-- The text the note shows for an optional value: the value itself when it is
present and not the empty string, the word `Unknown` otherwise. -/
def Shown (x : Option Str) (text : Str) : Prop :=
  (x = some text ∧ text ≠ []) ∨ ((x = none ∨ x = some []) ∧ text = "Unknown".toList)

/-- A table whose only key is the empty string. -/
def emptyKeyTable : CompanyTable := fun k =>
  if k = [] then some { name := some "Nameless Ltd".toList } else none

/-- The profile of scenario 1. -/
def acmeProfile : CompanyProfile :=
  { name := some "Acme Corp".toList, industry := some "Tech".toList,
    size := some "201-500".toList, location := some "San Francisco, CA".toList }

/-- A table whose only key is `acme.com`. -/
def acmeTable : CompanyTable := fun k =>
  if k = "acme.com".toList then some acmeProfile else none

/-- A pattern table in which `vp` stands before `sales`. -/
def samplePatterns : List TitlePattern :=
  [⟨["manager".toList], "Manager".toList, "General".toList⟩,
   ⟨["vice president".toList, "vp".toList], "VP".toList, "Executive".toList⟩,
   ⟨["sales".toList], "Individual".toList, "Sales".toList⟩]

/-- An environment in which the record store answers every call: the fetched
contact is the one of scenario 1. -/
def sampleEnv : Env :=
  { companies := acmeTable
    patterns := samplePatterns
    toLowerCase := List.map Char.toLower
    isoNow := "2024-01-15T10:20:30.000Z".toList
    getById := fun _ _ =>
      .ok { email := some "jane@acme.com".toList, jobtitle := some "VP of Sales".toList }
    update := fun _ _ => .ok () }

/-- The environment `sampleEnv` with a record reader that fails. -/
def fetchFailEnv : Env :=
  { sampleEnv with getById := fun _ _ => .error "Not Found".toList }

/-- The environment `sampleEnv` with a record writer that fails. -/
def writeFailEnv : Env :=
  { sampleEnv with update := fun _ _ => .error "Service Unavailable".toList }

/-- Two patterns with the same labels and the same set of keywords: one keyword
list is the other up to order and repetition. -/
def SameKeywordSet (p q : TitlePattern) : Prop :=
  p.seniority = q.seniority ∧ p.department = q.department ∧
    ∀ keyword : Str, keyword ∈ p.keywords ↔ keyword ∈ q.keywords

/-- A table whose only key is the empty string, holding the profile of
scenario 1. -/
def emptyKeyAcmeTable : CompanyTable := fun k =>
  if k = [] then some acmeProfile else none

/-- An exception raised inside a helper function. -/
inductive Raised where
  | typeError
  deriving DecidableEq

/-- The function `extractDomain(email)` with the one operation of its body that
can raise made explicit: the method call `parts[1].toLowerCase()` raises a
`TypeError` when `parts[1]` is `undefined`. -/
def extractDomainChecked (toLowerCase : Str → Str) (email : Option Str) :
    Except Raised (Option Str) :=
  if !truthy email then .ok none
  else
    let parts := split '@' (email.getD [])
    if parts.length = 2 then
      match parts.get? 1 with
      | some part => .ok (some (toLowerCase part))
      | none => .error .typeError
    else .ok none

/-- A table whose only entry has a location that begins with a comma. -/
def commaTable : CompanyTable := fun k =>
  if k = "acme.com".toList then some { location := some ", CA".toList } else none

/-- Letters with a case, among the ASCII characters and the Greek sigmas. -/
def isCased (c : Char) : Bool :=
  c.isAlpha || c = 'Σ' || c = 'σ' || c = 'ς'

/-- Characters that the Final_Sigma rule of Unicode skips, among the ASCII
characters: apostrophe, full stop, colon, circumflex and grave accent. -/
def isCaseIgnorable (c : Char) : Bool :=
  c.toNat = 0x27 || c = '.' || c = ':' || c = '^' || c.toNat = 0x60

/-- Whether a cased letter follows, case-ignorable characters skipped. -/
def followedByCased : Str → Bool
  | [] => false
  | c :: cs => if isCaseIgnorable c then followedByCased cs else isCased c

/-- The loop of `sigmaLower`; `afterCased` tells whether a cased letter stands
before the current position, case-ignorable characters skipped. -/
def sigmaLowerFrom (afterCased : Bool) : Str → Str
  | [] => []
  | c :: cs =>
    (if c = 'Σ' then (if afterCased && !followedByCased cs then 'ς' else 'σ') else c.toLower)
      :: sigmaLowerFrom (if isCaseIgnorable c then afterCased else isCased c) cs

/-- The built-in `String.prototype.toLowerCase` on strings of ASCII characters
and Greek sigmas: an ASCII capital becomes its small letter, and the capital
sigma becomes the final sigma `ς` when, by the Final_Sigma rule of Unicode, a
cased letter stands before it and none after it, and `σ` otherwise. -/
def sigmaLower (s : Str) : Str := sigmaLowerFrom false s

/-- A table whose only key is the small sigma, holding the profile of
scenario 1. -/
def sigmaTable : CompanyTable := fun k =>
  if k = ['σ'] then some acmeProfile else none

/-! ## Facts about the built-ins -/

theorem split_ne_nil (sep : Char) (s : Str) : split sep s ≠ [] := by
  cases s with
  | nil => simp [split]
  | cons c cs =>
    unfold split
    split_ifs
    · simp
    · split <;> simp

theorem split_length (sep : Char) (s : Str) :
    (split sep s).length = s.count sep + 1 := by
  induction s with
  | nil => simp [split]
  | cons c cs ih =>
    unfold split
    by_cases h : c = sep
    · subst h
      simp [ih]
    · have hne : (c == sep) = false := by simpa using h
      simp only [h, if_false]
      have hcount : (c :: cs).count sep = cs.count sep := by
        simp [List.count_cons, hne]
      rw [hcount, ← ih]
      cases hs : split sep cs with
      | nil => exact absurd hs (split_ne_nil sep cs)
      | cons seg segs => simp

theorem split_no_sep (sep : Char) (s : Str) (h : sep ∉ s) : split sep s = [s] := by
  induction s with
  | nil => simp [split]
  | cons c cs ih =>
    have hc : c ≠ sep := fun e => h (by simp [e])
    have hcs : sep ∉ cs := fun m => h (List.mem_cons_of_mem _ m)
    unfold split
    simp [hc, ih hcs]

theorem split_append_sep (sep : Char) (pre post : Str) (h : sep ∉ pre) :
    split sep (pre ++ sep :: post) = pre :: split sep post := by
  induction pre with
  | nil => simp [split]
  | cons c cs ih =>
    have hc : c ≠ sep := fun e => h (by simp [e])
    have hcs : sep ∉ cs := fun m => h (List.mem_cons_of_mem _ m)
    simp [split, hc, ih hcs]

theorem count_append_sep_eq_one (sep : Char) (pre post : Str)
    (h : (pre ++ sep :: post).count sep = 1) : sep ∉ pre ∧ sep ∉ post := by
  rw [List.count_append, List.count_cons_self] at h
  have h1 : pre.count sep = 0 := by omega
  have h2 : post.count sep = 0 := by omega
  exact ⟨List.count_eq_zero.mp h1, List.count_eq_zero.mp h2⟩

theorem includes_iff (s k : Str) : includes s k = true ↔ k <:+: s := by
  induction s with
  | nil =>
    cases k with
    | nil => simp [includes]
    | cons a as => simp [includes, List.isPrefixOf]
  | cons c cs ih =>
    rw [includes, Bool.or_eq_true, ih, List.isPrefixOf_iff_prefix, List.infix_cons_iff]

theorem replace_at_head (pattern replacement s : Str)
    (h : List.isPrefixOf pattern s = true) :
    replace pattern replacement s = replacement ++ s.drop pattern.length := by
  cases s with
  | nil =>
    cases pattern with
    | nil => simp [replace]
    | cons a as => simp [List.isPrefixOf] at h
  | cons c cs => simp [replace, h]

theorem replace_prefix_append (pattern replacement rest : Str) :
    replace pattern replacement (pattern ++ rest) = replacement ++ rest := by
  have h : List.isPrefixOf pattern (pattern ++ rest) = true := by
    rw [List.isPrefixOf_iff_prefix]
    exact List.prefix_append _ _
  rw [replace_at_head _ _ _ h, List.drop_left]

theorem replace_of_absent (pattern replacement s : Str) (h : ¬ pattern <:+: s) :
    replace pattern replacement s = s := by
  induction s with
  | nil =>
    have hp : List.isPrefixOf pattern [] = false := by
      cases hb : List.isPrefixOf pattern [] with
      | false => rfl
      | true =>
        exact absurd (List.isPrefixOf_iff_prefix.mp hb).isInfix h
    simp [replace, hp]
  | cons c cs ih =>
    have hp : List.isPrefixOf pattern (c :: cs) = false := by
      cases hb : List.isPrefixOf pattern (c :: cs) with
      | false => rfl
      | true =>
        exact absurd (List.isPrefixOf_iff_prefix.mp hb).isInfix h
    have hcs : ¬ pattern <:+: cs := fun hi => h (List.infix_cons hi)
    rw [replace, hp]
    simp [ih hcs]

theorem readCompany_of_own (companies : CompanyTable) (key : Str) (p : CompanyProfile)
    (h : companies key = some p) : readCompany companies key = some p := by
  simp [readCompany, h]

theorem readCompany_of_not_own (companies : CompanyTable) (key : Str)
    (h : companies key = none) : readCompany companies key = inheritedProperty key := by
  simp [readCompany, h]

theorem inheritedProperty_www (r : Str) : inheritedProperty ("www.".toList ++ r) = none := by
  simp [inheritedProperty, inheritedFunctionNames]

theorem enrichCompanyData_some_cons (companies : CompanyTable) (c : Char) (cs : Str) :
    enrichCompanyData companies (some (c :: cs)) =
      match readCompany companies (c :: cs) with
      | some profile => profile
      | none =>
        match readCompany companies (replace "www.".toList [] (c :: cs)) with
        | some profile => profile
        | none => {} := by
  simp [enrichCompanyData, truthy]

theorem scanKeywords_of_hit (lowerTitle : Str) (pattern : TitlePattern) (keywords : List Str)
    (h : ∃ keyword ∈ keywords, keyword <:+: lowerTitle) :
    scanKeywords lowerTitle pattern keywords =
      some { seniority := pattern.seniority, department := pattern.department } := by
  induction keywords with
  | nil => simp at h
  | cons k ks ih =>
    by_cases hk : includes lowerTitle k = true
    · simp [scanKeywords, hk]
    · obtain ⟨kw, hmem, hinf⟩ := h
      have hne : kw ≠ k := by
        intro e
        subst e
        exact hk ((includes_iff _ _).mpr hinf)
      have hmem2 : kw ∈ ks := by
        rcases List.mem_cons.mp hmem with e | m
        · exact absurd e hne
        · exact m
      simp [scanKeywords, hk, ih ⟨kw, hmem2, hinf⟩]

theorem scanKeywords_of_no_hit (lowerTitle : Str) (pattern : TitlePattern) (keywords : List Str)
    (h : ¬ ∃ keyword ∈ keywords, keyword <:+: lowerTitle) :
    scanKeywords lowerTitle pattern keywords = none := by
  induction keywords with
  | nil => simp [scanKeywords]
  | cons k ks ih =>
    have hk : includes lowerTitle k = false := by
      cases hb : includes lowerTitle k with
      | false => rfl
      | true => exact absurd ⟨k, by simp, (includes_iff _ _).mp hb⟩ h
    have hks : ¬ ∃ keyword ∈ ks, keyword <:+: lowerTitle := by
      rintro ⟨kw, hmem, hinf⟩
      exact h ⟨kw, List.mem_cons_of_mem _ hmem, hinf⟩
    simp [scanKeywords, hk, ih hks]

theorem scanPatterns_first_hit (lowerTitle : Str) (patterns : List TitlePattern) (i : Nat)
    (p : TitlePattern) (hp : patterns.get? i = some p) (hhit : p.hits lowerTitle)
    (hmin : ∀ (j : Nat) (q : TitlePattern), j < i → patterns.get? j = some q →
      ¬ q.hits lowerTitle) :
    scanPatterns lowerTitle patterns =
      some { seniority := p.seniority, department := p.department } := by
  induction patterns generalizing i with
  | nil => simp at hp
  | cons q qs ih =>
    cases i with
    | zero =>
      simp only [List.get?_cons_zero, Option.some.injEq] at hp
      subst hp
      simp [scanPatterns, scanKeywords_of_hit lowerTitle q q.keywords hhit]
    | succ n =>
      have hq : ¬ q.hits lowerTitle := hmin 0 q (Nat.succ_pos n) rfl
      have hrest : ∀ (j : Nat) (r : TitlePattern), j < n → qs.get? j = some r →
          ¬ r.hits lowerTitle := fun j r hj hr =>
        hmin (j + 1) r (Nat.succ_lt_succ hj) (by simpa using hr)
      simp only [List.get?_cons_succ] at hp
      simp [scanPatterns, scanKeywords_of_no_hit lowerTitle q q.keywords hq, ih n hp hrest]

theorem trim_isTrimOf (s : Str) : IsTrimOf (trim s) s := by
  have h1 : s = s.takeWhile isWhiteSpace ++ s.dropWhile isWhiteSpace :=
    (List.takeWhile_append_dropWhile _ _).symm
  have h2 : s.dropWhile isWhiteSpace =
      trim s ++ ((s.dropWhile isWhiteSpace).reverse.takeWhile isWhiteSpace).reverse := by
    have h := List.takeWhile_append_dropWhile isWhiteSpace (s.dropWhile isWhiteSpace).reverse
    have h' := congrArg List.reverse h
    rw [List.reverse_append, List.reverse_reverse] at h'
    exact h'.symm
  refine ⟨s.takeWhile isWhiteSpace,
    ((s.dropWhile isWhiteSpace).reverse.takeWhile isWhiteSpace).reverse, ?_, ?_, ?_, ?_, ?_⟩
  · rw [List.append_assoc, ← h2]
    exact h1
  · intro c hc
    exact (List.mem_takeWhile_imp hc)
  · intro c hc
    exact List.mem_takeWhile_imp (List.mem_reverse.mp hc)
  · intro c hc
    have hm : (s.dropWhile isWhiteSpace).head? = some c := by
      rw [h2]
      cases ht : trim s with
      | nil => rw [ht] at hc; simp at hc
      | cons a as => rw [ht] at hc; simpa using hc
    have hnot := List.head?_dropWhile_not isWhiteSpace s
    rw [hm] at hnot
    simpa using hnot
  · intro c hc
    have hm : ((s.dropWhile isWhiteSpace).reverse.dropWhile isWhiteSpace).head? = some c := by
      rw [trim, List.getLast?_reverse] at hc
      exact hc
    have hnot := List.head?_dropWhile_not isWhiteSpace (s.dropWhile isWhiteSpace).reverse
    rw [hm] at hnot
    simpa using hnot

theorem split_headD_of_sep (sep : Char) (pre post : Str) (h : sep ∉ pre) :
    (split sep (pre ++ sep :: post)).headD [] = pre := by
  rw [split_append_sep _ _ _ h]
  rfl

theorem split_headD_of_no_sep (sep : Char) (s : Str) (h : sep ∉ s) :
    (split sep s).headD [] = s := by
  rw [split_no_sep _ _ h]
  rfl

theorem buildUpdateData_eq (p : CompanyProfile) (hp : p.obeysDataModel) :
    buildUpdateData p =
      (match p.name with | some n => [("company", n)] | none => []) ++
      (match p.industry with | some i => [("industry", i)] | none => []) ++
      (match p.location with
        | some l => [("city", trim ((split ',' l).headD []))] | none => []) := by
  obtain ⟨name, industry, size, location⟩ := p
  obtain ⟨hn, hi, -, hl⟩ := hp
  simp only at hn hi hl
  rcases name with _ | _ | ⟨a, as⟩ <;> rcases industry with _ | _ | ⟨b, bs⟩ <;>
    rcases location with _ | _ | ⟨c, cs⟩ <;>
    first
    | exact absurd rfl hn
    | exact absurd rfl hi
    | exact absurd rfl hl
    | simp [buildUpdateData, truthy, Obj.set]

theorem invoke_cons (env : Env) (c : Char) (cs : Str) :
    invoke env (some (c :: cs)) =
      match env.getById (c :: cs) requestedProperties with
      | .error message =>
        (.returned ⟨500, .failure false message⟩, [.getById (c :: cs) requestedProperties])
      | .ok contact =>
        if (enrich env contact).updateData.keys.length = 0 then
          (.returned ⟨200, .noEnrichmentFound true
            "No enrichment data found for this contact".toList (enrich env contact).domain⟩,
            [.getById (c :: cs) requestedProperties])
        else
          match env.update (c :: cs) (enrich env contact).updateData with
          | .error message =>
            (.returned ⟨500, .failure false message⟩,
              [.getById (c :: cs) requestedProperties,
               .update (c :: cs) (enrich env contact).updateData])
          | .ok _ =>
            (.returned ⟨200, .enriched true "Contact enriched successfully".toList
              (enrich env contact).updateData
              { seniority := (enrich env contact).jobData.map Labels.seniority
                department := (enrich env contact).jobData.map Labels.department
                companySize := (enrich env contact).companyData.size
                enrichmentNote := (enrich env contact).enrichmentNote }⟩,
              [.getById (c :: cs) requestedProperties,
               .update (c :: cs) (enrich env contact).updateData]) := by
  simp only [invoke, main, Option.getD_some, truthy, List.isEmpty_cons, Bool.not_false,
    Bool.not_true, Bool.false_eq_true, if_false]

theorem orElse_of_shown (x : Option Str) (text : Str) (h : Shown x text) :
    orElse x "Unknown".toList = text := by
  rcases h with ⟨hx, hne⟩ | ⟨hx | hx, ht⟩
  · subst hx
    cases text with
    | nil => exact absurd rfl hne
    | cons c cs => simp [orElse]
  · subst hx
    subst ht
    rfl
  · subst hx
    subst ht
    rfl

theorem scanKeywords_eq_none_iff (lowerTitle : Str) (pattern : TitlePattern) :
    scanKeywords lowerTitle pattern pattern.keywords = none ↔ ¬ pattern.hits lowerTitle := by
  constructor
  · intro hnone hhit
    rw [scanKeywords_of_hit lowerTitle pattern pattern.keywords hhit] at hnone
    exact Option.noConfusion hnone
  · intro hno
    exact scanKeywords_of_no_hit lowerTitle pattern pattern.keywords hno

theorem scanPatterns_eq_none_iff (lowerTitle : Str) (patterns : List TitlePattern) :
    scanPatterns lowerTitle patterns = none ↔ ∀ p ∈ patterns, ¬ p.hits lowerTitle := by
  induction patterns with
  | nil => simp [scanPatterns]
  | cons q qs ih =>
    by_cases hq : q.hits lowerTitle
    · have hs := scanKeywords_of_hit lowerTitle q q.keywords hq
      simp only [scanPatterns, hs, List.mem_cons, forall_eq_or_imp]
      constructor
      · intro h
        exact Option.noConfusion h
      · intro h
        exact absurd hq h.1
    · have hs := scanKeywords_of_no_hit lowerTitle q q.keywords hq
      simp only [scanPatterns, hs, List.mem_cons, forall_eq_or_imp, ih]
      constructor
      · intro h
        exact ⟨hq, h⟩
      · intro h
        exact h.2

theorem enrichJobTitle_some_cons (toLowerCase : Str → Str) (patterns : List TitlePattern)
    (c : Char) (cs : Str) :
    enrichJobTitle toLowerCase patterns (some (c :: cs)) =
      scanPatterns (toLowerCase (c :: cs)) patterns := by
  simp [enrichJobTitle, truthy]

theorem note_unknown_labels (isoNow : Str) (profile : CompanyProfile) :
    "Seniority: Unknown, Department: Unknown".toList <:+:
      buildEnrichmentNote isoNow none profile := by
  refine ⟨"Enriched on ".toList ++ (split 'T' isoNow).headD [] ++ ". ".toList,
    ", ".toList ++ "Company Size: ".toList ++ orElse profile.size "Unknown".toList, ?_⟩
  simp [buildEnrichmentNote, orElse]
theorem scanKeywords_congr (lowerTitle : Str) (p q : TitlePattern) (h : SameKeywordSet p q) :
    scanKeywords lowerTitle p p.keywords = scanKeywords lowerTitle q q.keywords := by
  obtain ⟨hs, hd, hk⟩ := h
  by_cases hp : p.hits lowerTitle
  · have hq : q.hits lowerTitle := by
      obtain ⟨kw, hmem, hinf⟩ := hp
      exact ⟨kw, (hk kw).mp hmem, hinf⟩
    rw [scanKeywords_of_hit lowerTitle p p.keywords hp,
      scanKeywords_of_hit lowerTitle q q.keywords hq, hs, hd]
  · have hq : ¬ q.hits lowerTitle := by
      rintro ⟨kw, hmem, hinf⟩
      exact hp ⟨kw, (hk kw).mpr hmem, hinf⟩
    rw [scanKeywords_of_no_hit lowerTitle p p.keywords hp,
      scanKeywords_of_no_hit lowerTitle q q.keywords hq]

theorem scanPatterns_congr (lowerTitle : Str) (ps qs : List TitlePattern)
    (h : List.Forall₂ SameKeywordSet ps qs) :
    scanPatterns lowerTitle ps = scanPatterns lowerTitle qs := by
  induction h with
  | nil => rfl
  | cons hpq _ ih =>
    simp only [scanPatterns]
    rw [scanKeywords_congr lowerTitle _ _ hpq, ih]

theorem sameKeywordSet_refl (p : TitlePattern) : SameKeywordSet p p :=
  ⟨rfl, rfl, fun _ => Iff.rfl⟩

theorem forall₂_sameKeywordSet_refl (ps : List TitlePattern) :
    List.Forall₂ SameKeywordSet ps ps := by
  induction ps with
  | nil => exact List.Forall₂.nil
  | cons p ps ih => exact List.Forall₂.cons (sameKeywordSet_refl p) ih

theorem enrichJobTitle_congr (toLowerCase : Str → Str) (ps qs : List TitlePattern)
    (title : Option Str) (h : List.Forall₂ SameKeywordSet ps qs) :
    enrichJobTitle toLowerCase ps title = enrichJobTitle toLowerCase qs title := by
  simp only [enrichJobTitle]
  split_ifs
  · rfl
  · exact scanPatterns_congr _ ps qs h

theorem buildUpdateData_eq_nil_iff (p : CompanyProfile) :
    buildUpdateData p = [] ↔
      (truthy p.name = false ∧ truthy p.industry = false ∧ truthy p.location = false) := by
  obtain ⟨name, industry, size, location⟩ := p
  rcases name with _ | _ | ⟨a, as⟩ <;> rcases industry with _ | _ | ⟨b, bs⟩ <;>
    rcases location with _ | _ | ⟨c, cs⟩ <;>
    simp [buildUpdateData, truthy, Obj.set]

theorem truthy_eq_false_iff_none (x : Option Str) (h : x ≠ some []) :
    truthy x = false ↔ x = none := by
  rcases x with _ | _ | ⟨c, cs⟩
  · simp [truthy]
  · exact absurd rfl h
  · simp [truthy]

theorem extractDomain_of_one_at (toLowerCase : Str → Str) (pre post : Str)
    (hpre : '@' ∉ pre) (hpost : '@' ∉ post) :
    extractDomain toLowerCase (some (pre ++ '@' :: post)) = some (toLowerCase post) := by
  have hs : split '@' (pre ++ '@' :: post) = [pre, post] := by
    rw [split_append_sep _ _ _ hpre, split_no_sep _ _ hpost]
  simp [extractDomain, truthy, hs]

theorem enrichCompanyData_of_key (companies : CompanyTable) (d : Str) (p : CompanyProfile)
    (hd : d ≠ []) (hp : companies d = some p) :
    enrichCompanyData companies (some d) = p := by
  cases d with
  | nil => exact absurd rfl hd
  | cons c cs => rw [enrichCompanyData_some_cons, readCompany_of_own _ _ _ hp]

theorem enrichCompanyData_of_www_key (companies : CompanyTable) (r : Str) (p : CompanyProfile)
    (hw : companies ("www.".toList ++ r) = none) (hr : companies r = some p) :
    enrichCompanyData companies (some ("www.".toList ++ r)) = p := by
  have hrep : replace "www.".toList [] ('w' :: ("ww.".toList ++ r)) = r :=
    replace_prefix_append "www.".toList [] r
  have hcons : "www.".toList ++ r = 'w' :: ("ww.".toList ++ r) := rfl
  have hread : readCompany companies ("www.".toList ++ r) = none := by
    rw [readCompany_of_not_own _ _ hw, inheritedProperty_www]
  rw [hcons] at hread ⊢
  rw [enrichCompanyData_some_cons, hread, hrep, readCompany_of_own _ _ _ hr]

theorem buildUpdateData_full (p : CompanyProfile) (n i c rest : Str)
    (hname : p.name = some n) (hindustry : p.industry = some i)
    (hlocation : p.location = some (c ++ ',' :: rest))
    (hn : n ≠ []) (hi : i ≠ []) (hc : ',' ∉ c) :
    buildUpdateData p = [("company", n), ("industry", i), ("city", trim c)] := by
  have hsplit : (split ',' (c ++ ',' :: rest)).head?.getD [] = c := by
    rw [split_append_sep _ _ _ hc]
    rfl
  have htruthy : truthy (some (c ++ ',' :: rest)) = true := by
    cases c <;> simp [truthy]
  cases n with
  | nil => exact absurd rfl hn
  | cons a as =>
    cases i with
    | nil => exact absurd rfl hi
    | cons b bs =>
      simp [buildUpdateData, hname, hindustry, hlocation, htruthy, hsplit, truthy, Obj.set]

theorem enrichCompanyData_of_no_key (companies : CompanyTable) (domain : Option Str)
    (h : ∀ d : Str, domain = some d →
      readCompany companies d = none ∧
      readCompany companies (replace "www.".toList [] d) = none) :
    enrichCompanyData companies domain = {} := by
  rcases domain with _ | _ | ⟨c, cs⟩
  · simp [enrichCompanyData, truthy]
  · simp [enrichCompanyData, truthy]
  · obtain ⟨h1, h2⟩ := h (c :: cs) rfl
    rw [enrichCompanyData_some_cons, h1, h2]

theorem readCompany_eq_none (companies : CompanyTable) (key : Str)
    (hown : companies key = none) (hinherited : inheritedProperty key = none) :
    readCompany companies key = none := by
  rw [readCompany_of_not_own _ _ hown, hinherited]

theorem orElse_of_ne_nil (s d : Str) (h : s ≠ []) : orElse (some s) d = s := by
  cases s with
  | nil => exact absurd rfl h
  | cons c cs => simp [orElse]

theorem note_of_labels (isoNow : Str) (labels : Labels) (profile : CompanyProfile)
    (hs : labels.seniority ≠ []) (hd : labels.department ≠ []) :
    ("Seniority: ".toList ++ labels.seniority ++ ", Department: ".toList ++ labels.department)
      <:+: buildEnrichmentNote isoNow (some labels) profile := by
  refine ⟨"Enriched on ".toList ++ (split 'T' isoNow).headD [] ++ ". ".toList,
    ", ".toList ++ "Company Size: ".toList ++ orElse profile.size "Unknown".toList, ?_⟩
  simp [buildEnrichmentNote, orElse_of_ne_nil _ _ hs, orElse_of_ne_nil _ _ hd]

theorem extractDomainChecked_ok (toLowerCase : Str → Str) (email : Option Str) :
    extractDomainChecked toLowerCase email = .ok (extractDomain toLowerCase email) := by
  unfold extractDomainChecked extractDomain
  by_cases ht : truthy email = true
  · by_cases hl : (split '@' (email.getD [])).length = 2
    · obtain ⟨a, b, hab⟩ := List.length_eq_two.mp hl
      simp [ht, hab]
    · simp [ht, hl]
  · simp [ht]

theorem buildUpdateData_company_ne_nil (p : CompanyProfile) (v : Str)
    (h : (buildUpdateData p).get "company" = some v) : v ≠ [] := by
  obtain ⟨name, industry, size, location⟩ := p
  rcases name with _ | _ | ⟨a, as⟩ <;> rcases industry with _ | _ | ⟨b, bs⟩ <;>
    rcases location with _ | _ | ⟨c, cs⟩ <;>
    simp [buildUpdateData, truthy, Obj.set, Obj.get, List.lookup] at h <;>
    simp [← h]

theorem buildUpdateData_industry_ne_nil (p : CompanyProfile) (v : Str)
    (h : (buildUpdateData p).get "industry" = some v) : v ≠ [] := by
  obtain ⟨name, industry, size, location⟩ := p
  rcases name with _ | _ | ⟨a, as⟩ <;> rcases industry with _ | _ | ⟨b, bs⟩ <;>
    rcases location with _ | _ | ⟨c, cs⟩ <;>
    simp [buildUpdateData, truthy, Obj.set, Obj.get, List.lookup] at h <;>
    simp [← h]

/-! ## Claims -/

/-- C1. `extractDomain`: an e-mail with exactly one `@` yields the lower-cased
text after that `@` (the empty string when nothing follows it, and such a
decomposition always exists); an e-mail whose number of `@` is zero or at least
two, the empty e-mail and an absent e-mail all yield `null`. -/
theorem extractDomain_spec (toLowerCase : Str → Str) :
    (∀ email : Str, email.count '@' = 1 →
      (∃ pre post : Str, email = pre ++ '@' :: post) ∧
      (∀ pre post : Str, email = pre ++ '@' :: post →
        extractDomain toLowerCase (some email) = some (toLowerCase post))) ∧
    (∀ pre : Str, '@' ∉ pre →
      extractDomain toLowerCase (some (pre ++ ['@'])) = some (toLowerCase [])) ∧
    (∀ email : Str, email.count '@' ≠ 1 →
      extractDomain toLowerCase (some email) = none) ∧
    extractDomain toLowerCase (some []) = none ∧
    extractDomain toLowerCase none = none := by
  refine ⟨?_, ?_, ?_, ?_, ?_⟩
  · intro email hcount
    refine ⟨?_, ?_⟩
    · have hmem : '@' ∈ email := List.count_pos_iff.mp (by omega)
      obtain ⟨pre, post, rfl⟩ := List.append_of_mem hmem
      exact ⟨pre, post, rfl⟩
    · intro pre post he
      subst he
      obtain ⟨hpre, hpost⟩ := count_append_sep_eq_one '@' pre post hcount
      have hs : split '@' (pre ++ '@' :: post) = [pre, post] := by
        rw [split_append_sep _ _ _ hpre, split_no_sep _ _ hpost]
      simp [extractDomain, truthy, hs]
  · intro pre hpre
    have hs : split '@' (pre ++ ['@']) = [pre, []] := by
      rw [split_append_sep _ _ _ hpre]
      simp [split]
    simp [extractDomain, truthy, hs]
  · intro email hcount
    have hl : (split '@' email).length ≠ 2 := by
      rw [split_length]
      omega
    cases email with
    | nil => simp [extractDomain, truthy]
    | cons c cs => simp [extractDomain, truthy, hl]
  · simp [extractDomain, truthy]
  · simp [extractDomain, truthy]

/-- C1 at `Jane@Acme.COM`, `jane@` and `a@b@c` with ASCII lower-casing. -/
theorem extractDomain_spec_witness :
    ("Jane@Acme.COM".toList.count '@' = 1 ∧
      extractDomain (List.map Char.toLower) (some "Jane@Acme.COM".toList)
        = some "acme.com".toList) ∧
    ('@' ∉ "jane".toList ∧
      extractDomain (List.map Char.toLower) (some "jane@".toList) = some []) ∧
    ("a@b@c".toList.count '@' ≠ 1 ∧
      extractDomain (List.map Char.toLower) (some "a@b@c".toList) = none) :=
  ⟨⟨by decide,
    ((extractDomain_spec (List.map Char.toLower)).1 "Jane@Acme.COM".toList (by decide)).2
      "Jane".toList "Acme.COM".toList (by decide)⟩,
   ⟨by decide, (extractDomain_spec (List.map Char.toLower)).2.1 "jane".toList (by decide)⟩,
   ⟨by decide, (extractDomain_spec (List.map Char.toLower)).2.2.1 "a@b@c".toList (by decide)⟩⟩

/-- C2, the counterexample. The empty domain is a string and may be a key of the
table, yet `enrichCompanyData` answers it with the empty profile and not with
the entry stored under it. -/
theorem enrichCompanyData_empty_key_ignored :
    emptyKeyTable [] = some { name := some "Nameless Ltd".toList } ∧
    enrichCompanyData emptyKeyTable (some []) = {} ∧
    enrichCompanyData emptyKeyTable (some []) ≠ { name := some "Nameless Ltd".toList } := by
  refine ⟨by simp [emptyKeyTable], by simp [enrichCompanyData, truthy], ?_⟩
  simp [enrichCompanyData, truthy]

/-- C2, amended. For every table: an absent domain and the empty domain give
the empty profile; a non-empty domain that is a key gives its entry, whatever
else is a key; a domain `www.r` that is not a key gives the entry of `r` when
`r` is a key, and the empty profile when `r` is neither a key nor the name of a
property inherited from `Object.prototype`; a non-empty domain that is neither
a key nor the name of an inherited property and does not contain `www.` gives
the empty profile. -/
theorem enrichCompanyData_spec (companies : CompanyTable) :
    enrichCompanyData companies none = {} ∧
    enrichCompanyData companies (some []) = {} ∧
    (∀ (d : Str) (p : CompanyProfile), d ≠ [] → companies d = some p →
      enrichCompanyData companies (some d) = p) ∧
    (∀ (r : Str) (p : CompanyProfile), companies ("www.".toList ++ r) = none →
      companies r = some p →
      enrichCompanyData companies (some ("www.".toList ++ r)) = p) ∧
    (∀ r : Str, companies ("www.".toList ++ r) = none → companies r = none →
      inheritedProperty r = none →
      enrichCompanyData companies (some ("www.".toList ++ r)) = {}) ∧
    (∀ d : Str, companies d = none → inheritedProperty d = none →
      ¬ "www.".toList <:+: d →
      enrichCompanyData companies (some d) = {}) := by
  refine ⟨by simp [enrichCompanyData, truthy], by simp [enrichCompanyData, truthy],
    ?_, ?_, ?_, ?_⟩
  · intro d p hd hp
    exact enrichCompanyData_of_key companies d p hd hp
  · intro r p hw hr
    exact enrichCompanyData_of_www_key companies r p hw hr
  · intro r hw hr hinh
    apply enrichCompanyData_of_no_key
    intro d hd
    have hd2 : d = "www.".toList ++ r := (Option.some.inj hd).symm
    subst hd2
    have hrep : replace "www.".toList [] ("www.".toList ++ r) = r := by
      simpa using replace_prefix_append "www.".toList [] r
    rw [hrep]
    exact ⟨readCompany_eq_none _ _ hw (inheritedProperty_www r),
      readCompany_eq_none _ _ hr hinh⟩
  · intro d hd hinh hno
    apply enrichCompanyData_of_no_key
    intro d2 hd2
    have hd3 : d2 = d := (Option.some.inj hd2).symm
    subst hd3
    rw [replace_of_absent _ _ _ hno]
    exact ⟨readCompany_eq_none _ _ hd hinh, readCompany_eq_none _ _ hd hinh⟩

/-- C2 amended, at the table with the single key `acme.com`: the domains
`acme.com` and `www.acme.com` resolve to its entry, `www.other.org` and
`unknown.io` to the empty profile. -/
theorem enrichCompanyData_spec_witness :
    ("acme.com".toList ≠ [] ∧ acmeTable "acme.com".toList = some acmeProfile ∧
      enrichCompanyData acmeTable (some "acme.com".toList) = acmeProfile) ∧
    (acmeTable ("www.".toList ++ "acme.com".toList) = none ∧
      enrichCompanyData acmeTable (some ("www.".toList ++ "acme.com".toList)) = acmeProfile) ∧
    (acmeTable ("www.".toList ++ "other.org".toList) = none ∧
      acmeTable "other.org".toList = none ∧ inheritedProperty "other.org".toList = none ∧
      enrichCompanyData acmeTable (some ("www.".toList ++ "other.org".toList)) = {}) ∧
    (acmeTable "unknown.io".toList = none ∧ inheritedProperty "unknown.io".toList = none ∧
      ¬ "www.".toList <:+: "unknown.io".toList ∧
      enrichCompanyData acmeTable (some "unknown.io".toList) = {}) :=
  ⟨⟨by decide, by decide,
    (enrichCompanyData_spec acmeTable).2.2.1 "acme.com".toList acmeProfile
      (by decide) (by decide)⟩,
   ⟨by decide,
    (enrichCompanyData_spec acmeTable).2.2.2.1 "acme.com".toList acmeProfile
      (by decide) (by decide)⟩,
   ⟨by decide, by decide, by decide,
    (enrichCompanyData_spec acmeTable).2.2.2.2.1 "other.org".toList (by decide) (by decide)
      (by decide)⟩,
   ⟨by decide, by decide, fun h => Bool.noConfusion ((includes_iff _ _).mpr h ▸
      (by decide : includes "unknown.io".toList "www.".toList = false)),
    (enrichCompanyData_spec acmeTable).2.2.2.2.2 "unknown.io".toList (by decide) (by decide)
      (fun h => Bool.noConfusion ((includes_iff _ _).mpr h ▸
        (by decide : includes "unknown.io".toList "www.".toList = false)))⟩⟩

/-- C3. First match wins: for a non-empty title, when `i` is the lowest index of
a pattern with a keyword occurring in the lower-cased title, `enrichJobTitle`
returns the seniority and department of pattern `i`, whatever the patterns after
it are. -/
theorem enrichJobTitle_first_match (toLowerCase : Str → Str) (patterns : List TitlePattern)
    (title : Str) (i : Nat) (p : TitlePattern)
    (htitle : title ≠ [])
    (hp : patterns.get? i = some p)
    (hhit : p.hits (toLowerCase title))
    (hmin : ∀ (j : Nat) (q : TitlePattern), j < i → patterns.get? j = some q →
      ¬ q.hits (toLowerCase title)) :
    enrichJobTitle toLowerCase patterns (some title) =
      some { seniority := p.seniority, department := p.department } := by
  cases title with
  | nil => exact absurd rfl htitle
  | cons c cs =>
    simp only [enrichJobTitle, truthy, List.isEmpty_cons, Bool.not_false, Bool.not_true,
      Bool.false_eq_true, if_false, Option.getD_some]
    exact scanPatterns_first_hit _ patterns i p hp hhit hmin

/-- C3 at the title `VP of Sales`: the pattern with keyword `vp` stands before
the one with keyword `sales`, both occur in the title, and the first one wins. -/
theorem enrichJobTitle_first_match_witness :
    "VP of Sales".toList ≠ [] ∧
    samplePatterns.get? 1 =
      some ⟨["vice president".toList, "vp".toList], "VP".toList, "Executive".toList⟩ ∧
    enrichJobTitle (List.map Char.toLower) samplePatterns (some "VP of Sales".toList)
      = some { seniority := "VP".toList, department := "Executive".toList } :=
  ⟨by decide, rfl,
  enrichJobTitle_first_match (List.map Char.toLower) samplePatterns
    "VP of Sales".toList 1
    ⟨["vice president".toList, "vp".toList], "VP".toList, "Executive".toList⟩
    (by decide) rfl
    ⟨"vp".toList, by decide, (includes_iff _ _).mp (by decide)⟩
    (by
      intro j q hj hq
      have hj0 : j = 0 := by omega
      subst hj0
      have hq0 : q = ⟨["manager".toList], "Manager".toList, "General".toList⟩ :=
        (Option.some.inj hq).symm
      subst hq0
      rintro ⟨kw, hmem, hinf⟩
      have hkw : kw = "manager".toList := List.mem_singleton.mp hmem
      subst hkw
      have hfalse : includes (List.map Char.toLower "VP of Sales".toList) "manager".toList
          = false := by decide
      rw [(includes_iff _ _).mpr hinf] at hfalse
      exact Bool.noConfusion hfalse)⟩

/-- C4. The update payload of a profile that obeys the data model: `company` is
a key exactly when the profile has a name and its value is that name; the same
for `industry`; `city` is a key exactly when the profile has a location, and its
value is the text before the first comma of the location (the whole location
when it has no comma) with leading and trailing white space removed; there is no
other key and no key occurs twice. -/
theorem buildUpdateData_spec (p : CompanyProfile) (hp : p.obeysDataModel) :
    (buildUpdateData p).get "company" = p.name ∧
    ("company" ∈ (buildUpdateData p).keys ↔ p.name ≠ none) ∧
    (buildUpdateData p).get "industry" = p.industry ∧
    ("industry" ∈ (buildUpdateData p).keys ↔ p.industry ≠ none) ∧
    ("city" ∈ (buildUpdateData p).keys ↔ p.location ≠ none) ∧
    (p.location = none → (buildUpdateData p).get "city" = none) ∧
    (∀ l : Str, p.location = some l →
      ∃ city : Str, (buildUpdateData p).get "city" = some city ∧
        (∀ pre post : Str, l = pre ++ ',' :: post → ',' ∉ pre → IsTrimOf city pre) ∧
        (',' ∉ l → IsTrimOf city l)) ∧
    (∀ k ∈ (buildUpdateData p).keys, k = "company" ∨ k = "industry" ∨ k = "city") ∧
    (buildUpdateData p).keys.Nodup := by
  rw [buildUpdateData_eq p hp]
  obtain ⟨name, industry, size, location⟩ := p
  refine ⟨?_, ?_, ?_, ?_, ?_, ?_, ?_, ?_, ?_⟩
  · cases name <;> cases industry <;> cases location <;> simp [Obj.get, List.lookup]
  · cases name <;> cases industry <;> cases location <;> simp [Obj.keys]
  · cases name <;> cases industry <;> cases location <;> simp [Obj.get, List.lookup]
  · cases name <;> cases industry <;> cases location <;> simp [Obj.keys]
  · cases name <;> cases industry <;> cases location <;> simp [Obj.keys]
  · intro hl
    simp only at hl
    subst hl
    cases name <;> cases industry <;> simp [Obj.get, List.lookup]
  · intro l hl
    simp only at hl
    subst hl
    refine ⟨trim ((split ',' l).headD []), ?_, ?_, ?_⟩
    · cases name <;> cases industry <;> simp [Obj.get, List.lookup]
    · intro pre post hsplit hpre
      rw [hsplit, split_headD_of_sep _ _ _ hpre]
      exact trim_isTrimOf pre
    · intro hno
      rw [split_headD_of_no_sep _ _ hno]
      exact trim_isTrimOf l
  · cases name <;> cases industry <;> cases location <;> simp [Obj.keys]
  · cases name <;> cases industry <;> cases location <;> simp [Obj.keys]

/-- C4 at the profile of scenario 1: the payload is company, industry and the
city `San Francisco`. -/
theorem buildUpdateData_spec_witness :
    acmeProfile.obeysDataModel ∧
    (buildUpdateData acmeProfile).get "company" = some "Acme Corp".toList ∧
    buildUpdateData acmeProfile =
      [("company", "Acme Corp".toList), ("industry", "Tech".toList),
       ("city", "San Francisco".toList)] :=
  ⟨⟨by decide, by decide, by decide, by decide⟩,
   (buildUpdateData_spec acmeProfile ⟨by decide, by decide, by decide, by decide⟩).1,
   by decide⟩

/-- C5. The calls of one invocation with a non-empty contact id: the first call
is `getById` for that id and it is the only `getById`; what follows is at most
one call, an `update`; and an `update` is made exactly when the fetch succeeded
and the payload computed from the fetched contact is not empty. -/
theorem main_call_discipline (env : Env) (contactId : Str) (hid : contactId ≠ []) :
    ∃ rest : List Call,
      (invoke env (some contactId)).2 = Call.getById contactId requestedProperties :: rest ∧
      (∀ c ∈ rest, c.isUpdate = true) ∧
      rest.length ≤ 1 ∧
      (invoke env (some contactId)).2.countP Call.isGetById = 1 ∧
      (invoke env (some contactId)).2.countP Call.isUpdate ≤ 1 ∧
      ((invoke env (some contactId)).2.countP Call.isUpdate = 1 ↔
        ∃ contact : Contact, env.getById contactId requestedProperties = .ok contact ∧
          (enrich env contact).hasUpdates = true) := by
  cases contactId with
  | nil => exact absurd rfl hid
  | cons c cs =>
    rw [invoke_cons]
    cases hfetch : env.getById (c :: cs) requestedProperties with
    | error message =>
      exact ⟨[], by simp [Call.isGetById, Call.isUpdate]⟩
    | ok contact =>
      by_cases hkeys : (enrich env contact).updateData.keys.length = 0
      · refine ⟨[], ?_⟩
        have hnil : (enrich env contact).updateData.keys = [] := List.length_eq_zero.mp hkeys
        simp [hkeys, hnil, Call.isGetById, Call.isUpdate, Enrichment.hasUpdates]
      · cases hwrite : env.update (c :: cs) (enrich env contact).updateData with
        | error message =>
          refine ⟨[.update (c :: cs) (enrich env contact).updateData], ?_⟩
          have hne : (enrich env contact).updateData.keys ≠ [] :=
            fun h => hkeys (List.length_eq_zero.mpr h)
          simp [hkeys, hne, hwrite, Call.isGetById, Call.isUpdate, Enrichment.hasUpdates]
        | ok u =>
          refine ⟨[.update (c :: cs) (enrich env contact).updateData], ?_⟩
          have hne : (enrich env contact).updateData.keys ≠ [] :=
            fun h => hkeys (List.length_eq_zero.mpr h)
          simp [hkeys, hne, hwrite, Call.isGetById, Call.isUpdate, Enrichment.hasUpdates]

/-- C5 at contact id `42` in the environment whose store answers every call. -/
theorem main_call_discipline_witness :
    "42".toList ≠ [] ∧
    ∃ rest : List Call,
      (invoke sampleEnv (some "42".toList)).2 =
        Call.getById "42".toList requestedProperties :: rest ∧
      (∀ c ∈ rest, c.isUpdate = true) ∧
      rest.length ≤ 1 ∧
      (invoke sampleEnv (some "42".toList)).2.countP Call.isGetById = 1 ∧
      (invoke sampleEnv (some "42".toList)).2.countP Call.isUpdate ≤ 1 ∧
      ((invoke sampleEnv (some "42".toList)).2.countP Call.isUpdate = 1 ↔
        ∃ contact : Contact,
          sampleEnv.getById "42".toList requestedProperties = .ok contact ∧
          (enrich sampleEnv contact).hasUpdates = true) :=
  ⟨by decide, main_call_discipline sampleEnv "42".toList (by decide)⟩

/-- C6, the failing input. Called without a context, or with the default
context that has no `parameters`, `main` throws a `TypeError` and returns no
response; when `parameters` is there and `contactId` is missing or the empty
string, `main` returns status 400 with the error `Contact ID is required`. In
all four cases no call to the record store is made. -/
theorem main_default_context_throws (env : Env) :
    main env none = (.threwTypeError, []) ∧
    main env (some {}) = (.threwTypeError, []) ∧
    invoke env none =
      (.returned ⟨400, .invalidInput "Contact ID is required".toList⟩, []) ∧
    invoke env (some []) =
      (.returned ⟨400, .invalidInput "Contact ID is required".toList⟩, []) := by
  refine ⟨rfl, rfl, rfl, rfl⟩

/-- C7. When the record reader fails with message `m` for a non-empty contact
id, `main` returns status 500 with `success: false` and `error: m`, and the only
call made is the `getById`: no `update`. -/
theorem main_fetch_failure (env : Env) (contactId m : Str) (hid : contactId ≠ [])
    (hfail : env.getById contactId requestedProperties = .error m) :
    invoke env (some contactId) =
      (.returned ⟨500, .failure false m⟩, [.getById contactId requestedProperties]) ∧
    (invoke env (some contactId)).2.countP Call.isUpdate = 0 := by
  cases contactId with
  | nil => exact absurd rfl hid
  | cons c cs =>
    rw [invoke_cons, hfail]
    simp [Call.isUpdate]

/-- C7 at contact id `42` with a reader that fails with `Not Found`. -/
theorem main_fetch_failure_witness :
    "42".toList ≠ [] ∧
    fetchFailEnv.getById "42".toList requestedProperties = .error "Not Found".toList ∧
    invoke fetchFailEnv (some "42".toList) =
      (.returned ⟨500, .failure false "Not Found".toList⟩,
        [.getById "42".toList requestedProperties]) :=
  ⟨by decide, rfl,
   (main_fetch_failure fetchFailEnv "42".toList "Not Found".toList (by decide) rfl).1⟩

/-- C8. A response of the enriched shape is returned only with status 200,
`success: true` and the message `Contact enriched successfully`, after exactly a
`getById` and an `update` that succeeded, with a non-empty payload, and its
`enrichedData` is the properties map passed to that `update`; when the writer
fails with message `m` the response is status 500 with `error: m`. -/
theorem main_enriched_only_after_write (env : Env) (context : Option Context) :
    (∀ (code : Nat) (success : Bool) (message : Str) (data : Obj) (info : AdditionalInfo),
      (main env context).1 = .returned ⟨code, .enriched success message data info⟩ →
        code = 200 ∧ success = true ∧ message = "Contact enriched successfully".toList ∧
        data.keys ≠ [] ∧
        ∃ contactId : Str,
          (main env context).2 =
            [.getById contactId requestedProperties, .update contactId data] ∧
          env.update contactId data = .ok ()) ∧
    (∀ (contactId : Str) (contact : Contact) (m : Str),
      context = some { parameters := some { contactId := some contactId } } →
      contactId ≠ [] →
      env.getById contactId requestedProperties = .ok contact →
      (enrich env contact).hasUpdates = true →
      env.update contactId (enrich env contact).updateData = .error m →
        (main env context).1 = .returned ⟨500, .failure false m⟩) := by
  constructor
  · intro code success message data info hret
    rcases context with _ | ⟨_ | ⟨_ | _ | ⟨c, cs⟩⟩⟩
    · simp [main] at hret
    · simp [main] at hret
    · simp [main, truthy] at hret
    · simp [main, truthy] at hret
    · have hmain : main env (some { parameters := some { contactId := some (c :: cs) } })
          = invoke env (some (c :: cs)) := rfl
      rw [hmain, invoke_cons] at hret
      rw [hmain, invoke_cons]
      cases hfetch : env.getById (c :: cs) requestedProperties with
      | error msg => simp [hfetch] at hret
      | ok contact =>
        by_cases hkeys : (enrich env contact).updateData.keys.length = 0
        · simp [hfetch, hkeys] at hret
        · cases hwrite : env.update (c :: cs) (enrich env contact).updateData with
          | error msg => simp [hfetch, hkeys, hwrite] at hret
          | ok u =>
            simp only [hfetch, hkeys, hwrite, if_false, Outcome.returned.injEq,
              Response.mk.injEq, Body.enriched.injEq] at hret
            obtain ⟨hcode, hs, hm, hd, -⟩ := hret
            subst hd
            refine ⟨hcode.symm, hs.symm, hm.symm,
              fun h => hkeys (List.length_eq_zero.mpr h), c :: cs, ?_, hwrite⟩
            simp [hkeys, hwrite]
  · intro contactId contact m hctx hid hfetch hupd hwrite
    subst hctx
    cases contactId with
    | nil => exact absurd rfl hid
    | cons c cs =>
      have hmain : main env (some { parameters := some { contactId := some (c :: cs) } })
          = invoke env (some (c :: cs)) := rfl
      have hkeys : ¬ (enrich env contact).updateData.keys.length = 0 := by
        simpa [Enrichment.hasUpdates] using hupd
      rw [hmain, invoke_cons, hfetch]
      simp [hkeys, hwrite]

/-- C8 at contact id `42`: with a store that answers every call the enriched
response comes after the `update` of the same payload; with a writer that fails
with `Service Unavailable` the payload is not empty and the response is the
failure, not the success. -/
theorem main_enriched_only_after_write_witness :
    ((main sampleEnv (some { parameters := some { contactId := some "42".toList } })).2 =
        [.getById "42".toList requestedProperties,
         .update "42".toList (buildUpdateData acmeProfile)] ∧
      sampleEnv.update "42".toList (buildUpdateData acmeProfile) = .ok ()) ∧
    ("42".toList ≠ [] ∧
      (main writeFailEnv (some { parameters := some { contactId := some "42".toList } })).1
        = .returned ⟨500, .failure false "Service Unavailable".toList⟩) :=
  ⟨by
    obtain ⟨-, -, -, -, id, htrace, hwrite⟩ :=
      (main_enriched_only_after_write sampleEnv
        (some { parameters := some { contactId := some "42".toList } })).1
        200 true "Contact enriched successfully".toList (buildUpdateData acmeProfile)
        { seniority := some "VP".toList, department := some "Executive".toList,
          companySize := some "201-500".toList,
          enrichmentNote := ("Enriched on 2024-01-15. Seniority: VP, Department: Executive, " ++
            "Company Size: 201-500").toList }
        (by decide)
    have hid : id = "42".toList := by
      have h0 := congrArg List.head? htrace
      have h1 : (main sampleEnv
          (some { parameters := some { contactId := some "42".toList } })).2.head? =
          some (.getById "42".toList requestedProperties) := by decide
      rw [h1] at h0
      simp only [List.head?_cons, Option.some.injEq, Call.getById.injEq, and_true] at h0
      exact h0.symm
    subst hid
    exact ⟨htrace, hwrite⟩,
   by decide,
   (main_enriched_only_after_write writeFailEnv
      (some { parameters := some { contactId := some "42".toList } })).2
      "42".toList
      { email := some "jane@acme.com".toList, jobtitle := some "VP of Sales".toList }
      "Service Unavailable".toList rfl (by decide) rfl (by decide) rfl⟩

/-- C9, the counterexample. A classification whose seniority is the empty
string is not absent, yet the note shows `Unknown` for it and not the empty
text the template of the claim asks for. -/
theorem buildEnrichmentNote_empty_seniority :
    buildEnrichmentNote "2024-01-15T10:20:30.000Z".toList
        (some { seniority := [], department := "Sales".toList }) {}
      = "Enriched on 2024-01-15. Seniority: Unknown, Department: Sales, Company Size: Unknown".toList ∧
    buildEnrichmentNote "2024-01-15T10:20:30.000Z".toList
        (some { seniority := [], department := "Sales".toList }) {}
      ≠ "Enriched on 2024-01-15. Seniority: , Department: Sales, Company Size: Unknown".toList := by
  constructor <;> decide

/-- C9, amended. For a clock reading `D` followed by `T` and the time of day,
the note is `Enriched on D. Seniority: S, Department: P, Company Size: Z`, where
`S`, `P`, `Z` are the seniority and department of the classification and the
size of the profile, each replaced by `Unknown` when it is absent or the empty
string. -/
theorem buildEnrichmentNote_spec (day time : Str) (jobData : JobData)
    (profile : CompanyProfile) (S P Z : Str)
    (hday : 'T' ∉ day)
    (hS : Shown (jobData.map Labels.seniority) S)
    (hP : Shown (jobData.map Labels.department) P)
    (hZ : Shown profile.size Z) :
    buildEnrichmentNote (day ++ 'T' :: time) jobData profile =
      "Enriched on ".toList ++ day ++ ". Seniority: ".toList ++ S ++
      ", Department: ".toList ++ P ++ ", Company Size: ".toList ++ Z := by
  rw [buildEnrichmentNote, split_headD_of_sep _ _ _ hday, orElse_of_shown _ _ hS,
    orElse_of_shown _ _ hP, orElse_of_shown _ _ hZ]
  simp

/-- C9 amended, at the 15th of January 2024 with the classification `VP`,
`Executive` and a profile without size. -/
theorem buildEnrichmentNote_spec_witness :
    buildEnrichmentNote "2024-01-15T10:20:30.000Z".toList
        (some { seniority := "VP".toList, department := "Executive".toList }) {}
      = "Enriched on 2024-01-15. Seniority: VP, Department: Executive, Company Size: Unknown".toList :=
  buildEnrichmentNote_spec "2024-01-15".toList "10:20:30.000Z".toList
    (some { seniority := "VP".toList, department := "Executive".toList }) {}
    "VP".toList "Executive".toList "Unknown".toList
    (by decide) (Or.inl ⟨rfl, by decide⟩) (Or.inl ⟨rfl, by decide⟩) (Or.inr ⟨Or.inl rfl, rfl⟩)

/-- C10, the failing input. The domain `acme.www.com` is not a key of the table
and does not begin with `www.`, yet `enrichCompanyData` removes the `www.` inside
it and returns the entry of `acme.com`. -/
theorem enrichCompanyData_inner_www :
    acmeTable "acme.www.com".toList = none ∧
    List.isPrefixOf "www.".toList "acme.www.com".toList = false ∧
    replace "www.".toList [] "acme.www.com".toList = "acme.com".toList ∧
    enrichCompanyData acmeTable (some "acme.www.com".toList) = acmeProfile ∧
    enrichCompanyData acmeTable (some "acme.www.com".toList) ≠ {} := by
  refine ⟨by decide, by decide, by decide, by decide, by decide⟩

/-- C11. `enrichJobTitle` returns `{}` exactly when the title is absent, empty,
or no pattern has a keyword occurring in the lower-cased title; an absent or
empty title gives `{}` for every pattern table, and for a fetched contact whose
job title is absent or empty the classification is `{}` and the note reads
`Seniority: Unknown, Department: Unknown`. -/
theorem enrichJobTitle_empty_iff :
    (∀ (toLowerCase : Str → Str) (patterns : List TitlePattern) (title : Option Str),
      enrichJobTitle toLowerCase patterns title = none ↔
        (title = none ∨ title = some [] ∨
          ∀ p ∈ patterns, ¬ p.hits (toLowerCase (title.getD [])))) ∧
    (∀ (toLowerCase : Str → Str) (patterns : List TitlePattern),
      enrichJobTitle toLowerCase patterns none = none ∧
      enrichJobTitle toLowerCase patterns (some []) = none) ∧
    (∀ (isoNow : Str) (profile : CompanyProfile),
      "Seniority: Unknown, Department: Unknown".toList <:+:
        buildEnrichmentNote isoNow none profile) ∧
    (∀ (env : Env) (contact : Contact),
      (contact.jobtitle = none ∨ contact.jobtitle = some []) →
        (enrich env contact).jobData = none ∧
        "Seniority: Unknown, Department: Unknown".toList <:+:
          (enrich env contact).enrichmentNote) := by
  refine ⟨?_, ?_, note_unknown_labels, ?_⟩
  · intro toLowerCase patterns title
    rcases title with _ | _ | ⟨c, cs⟩
    · simp [enrichJobTitle, truthy]
    · simp [enrichJobTitle, truthy]
    · rw [enrichJobTitle_some_cons, scanPatterns_eq_none_iff]
      simp
  · intro toLowerCase patterns
    simp [enrichJobTitle, truthy]
  · intro env contact hjob
    have hdata : (enrich env contact).jobData = none := by
      rcases hjob with h | h <;> simp [enrich, h, orElse, enrichJobTitle, truthy]
    refine ⟨hdata, ?_⟩
    have hnote : (enrich env contact).enrichmentNote =
        buildEnrichmentNote env.isoNow (enrich env contact).jobData
          (enrich env contact).companyData := rfl
    rw [hnote, hdata]
    exact note_unknown_labels _ _

/-- C11 for a contact without job title, with a pattern table whose first
pattern has the empty string as a keyword. -/
theorem enrichJobTitle_empty_iff_witness :
    (enrich { sampleEnv with patterns := [⟨[[]], "Any".toList, "Any".toList⟩] }
        { email := some "jane@acme.com".toList }).jobData = none ∧
    "Seniority: Unknown, Department: Unknown".toList <:+:
      (enrich { sampleEnv with patterns := [⟨[[]], "Any".toList, "Any".toList⟩] }
        { email := some "jane@acme.com".toList }).enrichmentNote :=
  enrichJobTitle_empty_iff.2.2.2
    { sampleEnv with patterns := [⟨[[]], "Any".toList, "Any".toList⟩] }
    { email := some "jane@acme.com".toList } (Or.inl rfl)
/-- C12. The order of the keywords inside a pattern does not matter: replacing
the keyword list of one pattern by a permutation of it, or by any list with the
same set of keywords, leaves the result of `enrichJobTitle` unchanged; the same
holds when this is done in any number of patterns at once. -/
theorem enrichJobTitle_keyword_order (toLowerCase : Str → Str) (title : Option Str) :
    (∀ (before after : List TitlePattern) (p : TitlePattern) (keywords : List Str),
      keywords.Perm p.keywords →
        enrichJobTitle toLowerCase (before ++ { p with keywords := keywords } :: after) title =
        enrichJobTitle toLowerCase (before ++ p :: after) title) ∧
    (∀ (before after : List TitlePattern) (p : TitlePattern) (keywords : List Str),
      (∀ keyword : Str, keyword ∈ keywords ↔ keyword ∈ p.keywords) →
        enrichJobTitle toLowerCase (before ++ { p with keywords := keywords } :: after) title =
        enrichJobTitle toLowerCase (before ++ p :: after) title) ∧
    (∀ ps qs : List TitlePattern, List.Forall₂ SameKeywordSet ps qs →
      enrichJobTitle toLowerCase ps title = enrichJobTitle toLowerCase qs title) := by
  have hset : ∀ (before after : List TitlePattern) (p : TitlePattern) (keywords : List Str),
      (∀ keyword : Str, keyword ∈ keywords ↔ keyword ∈ p.keywords) →
        enrichJobTitle toLowerCase (before ++ { p with keywords := keywords } :: after) title =
        enrichJobTitle toLowerCase (before ++ p :: after) title := by
    intro before after p keywords hmem
    apply enrichJobTitle_congr
    apply List.rel_append (forall₂_sameKeywordSet_refl before)
    exact List.Forall₂.cons ⟨rfl, rfl, hmem⟩ (forall₂_sameKeywordSet_refl after)
  refine ⟨?_, hset, ?_⟩
  · intro before after p keywords hperm
    exact hset before after p keywords (fun keyword => hperm.mem_iff)
  · intro ps qs h
    exact enrichJobTitle_congr toLowerCase ps qs title h

/-- C12 at the title `VP of Sales`: the keywords of the second sample pattern
in the other order, and with one of them repeated. -/
theorem enrichJobTitle_keyword_order_witness :
    enrichJobTitle (List.map Char.toLower)
        ([⟨["manager".toList], "Manager".toList, "General".toList⟩] ++
          { (⟨["vice president".toList, "vp".toList], "VP".toList, "Executive".toList⟩ :
              TitlePattern) with keywords := ["vp".toList, "vice president".toList] } ::
          [⟨["sales".toList], "Individual".toList, "Sales".toList⟩])
        (some "VP of Sales".toList) =
      enrichJobTitle (List.map Char.toLower) samplePatterns (some "VP of Sales".toList) ∧
    enrichJobTitle (List.map Char.toLower)
        ([⟨["manager".toList], "Manager".toList, "General".toList⟩] ++
          { (⟨["vice president".toList, "vp".toList], "VP".toList, "Executive".toList⟩ :
              TitlePattern) with
            keywords := ["vp".toList, "vice president".toList, "vp".toList] } ::
          [⟨["sales".toList], "Individual".toList, "Sales".toList⟩])
        (some "VP of Sales".toList) =
      enrichJobTitle (List.map Char.toLower) samplePatterns (some "VP of Sales".toList) :=
  ⟨(enrichJobTitle_keyword_order (List.map Char.toLower) (some "VP of Sales".toList)).1
      [⟨["manager".toList], "Manager".toList, "General".toList⟩]
      [⟨["sales".toList], "Individual".toList, "Sales".toList⟩]
      ⟨["vice president".toList, "vp".toList], "VP".toList, "Executive".toList⟩
      ["vp".toList, "vice president".toList] (List.Perm.swap _ _ _),
   (enrichJobTitle_keyword_order (List.map Char.toLower) (some "VP of Sales".toList)).2.1
      [⟨["manager".toList], "Manager".toList, "General".toList⟩]
      [⟨["sales".toList], "Individual".toList, "Sales".toList⟩]
      ⟨["vice president".toList, "vp".toList], "VP".toList, "Executive".toList⟩
      ["vp".toList, "vice president".toList, "vp".toList]
      (by intro keyword; simp only [List.mem_cons, List.mem_singleton, List.not_mem_nil]; tauto)⟩

/-- C13. For a non-empty contact id whose fetch succeeds, `main` returns the
response `No enrichment data found for this contact` (status 200, `success:
true`) exactly when the payload is empty; the domain it carries is
`extractDomain` of the fetched e-mail; the payload is empty exactly when none of
name, industry and location of the resolved profile is a non-empty string, which
for a profile that obeys the data model means that all three are absent. -/
theorem main_no_enrichment_found (env : Env) (contactId : Str) (contact : Contact)
    (hid : contactId ≠ [])
    (hfetch : env.getById contactId requestedProperties = .ok contact) :
    ((invoke env (some contactId)).1 =
        .returned ⟨200, .noEnrichmentFound true
          "No enrichment data found for this contact".toList
          (extractDomain env.toLowerCase contact.email)⟩ ↔
      (enrich env contact).updateData = []) ∧
    (∀ (code : Nat) (success : Bool) (message : Str) (domain : Option Str),
      (invoke env (some contactId)).1 =
          .returned ⟨code, .noEnrichmentFound success message domain⟩ →
        code = 200 ∧ success = true ∧
        message = "No enrichment data found for this contact".toList ∧
        domain = extractDomain env.toLowerCase contact.email ∧
        (enrich env contact).updateData = []) ∧
    ((enrich env contact).updateData = [] ↔ (enrich env contact).hasUpdates = false) ∧
    ((enrich env contact).updateData = [] ↔
      (truthy (enrich env contact).companyData.name = false ∧
       truthy (enrich env contact).companyData.industry = false ∧
       truthy (enrich env contact).companyData.location = false)) ∧
    ((enrich env contact).companyData.obeysDataModel →
      ((enrich env contact).updateData = [] ↔
        ((enrich env contact).companyData.name = none ∧
         (enrich env contact).companyData.industry = none ∧
         (enrich env contact).companyData.location = none))) := by
  have hdomain : (enrich env contact).domain = extractDomain env.toLowerCase contact.email := rfl
  have hpayload : (enrich env contact).updateData =
      buildUpdateData (enrich env contact).companyData := rfl
  have hlen : (enrich env contact).updateData.keys.length = 0 ↔
      (enrich env contact).updateData = [] := by
    simp [Obj.keys]
  cases contactId with
  | nil => exact absurd rfl hid
  | cons c cs =>
    refine ⟨?_, ?_, ?_, ?_, ?_⟩
    · rw [invoke_cons, hfetch]
      by_cases hkeys : (enrich env contact).updateData.keys.length = 0
      · simp [hkeys, hlen.mp hkeys, hdomain, Obj.keys]
      · have hne : (enrich env contact).updateData ≠ [] := fun h => hkeys (hlen.mpr h)
        cases hwrite : env.update (c :: cs) (enrich env contact).updateData <;>
          simp [hkeys, hne, hwrite]
    · intro code success message domain hret
      rw [invoke_cons, hfetch] at hret
      by_cases hkeys : (enrich env contact).updateData.keys.length = 0
      · simp only [hkeys, if_true, Outcome.returned.injEq, Response.mk.injEq,
          Body.noEnrichmentFound.injEq] at hret
        obtain ⟨hcode, hs, hm, hd⟩ := hret
        exact ⟨hcode.symm, hs.symm, hm.symm, by rw [← hd, hdomain], hlen.mp hkeys⟩
      · cases hwrite : env.update (c :: cs) (enrich env contact).updateData <;>
          simp [hkeys, hwrite] at hret
    · simp [Enrichment.hasUpdates, Obj.keys]
    · rw [hpayload]
      exact buildUpdateData_eq_nil_iff _
    · intro hmodel
      obtain ⟨hn, hi, -, hl⟩ := hmodel
      rw [hpayload, buildUpdateData_eq_nil_iff, truthy_eq_false_iff_none _ hn,
        truthy_eq_false_iff_none _ hi, truthy_eq_false_iff_none _ hl]

/-- C13 at contact id `42` with a table without entries: the fetched e-mail
`jane@acme.com` resolves to no profile and the response carries the domain
`acme.com`. -/
theorem main_no_enrichment_found_witness :
    "42".toList ≠ [] ∧
    (invoke { sampleEnv with companies := fun _ => none } (some "42".toList)).1 =
      .returned ⟨200, .noEnrichmentFound true
        "No enrichment data found for this contact".toList (some "acme.com".toList)⟩ :=
  ⟨by decide,
   ((main_no_enrichment_found { sampleEnv with companies := fun _ => none } "42".toList
      { email := some "jane@acme.com".toList, jobtitle := some "VP of Sales".toList }
      (by decide) rfl).1).mpr (by decide)⟩

/-- C14, the counterexample. The e-mail `jane@` has exactly one `@` and the
lower-cased text after it, the empty string, is a key of the table with a full
profile, yet the payload is empty. And with the table whose key is the small
sigma: the e-mail `jane@Σ` gets the full payload, `www.σ` is not a key, yet the
e-mail `bob@www.Σ` gets the empty payload, because its domain lower-cases to
`www.ς`, with the final sigma. -/
theorem enrich_empty_domain_no_updates :
    ("jane@".toList.count '@' = 1 ∧
      extractDomain (List.map Char.toLower) (some "jane@".toList) = some [] ∧
      emptyKeyAcmeTable (List.map Char.toLower []) = some acmeProfile ∧
      (enrich { sampleEnv with companies := emptyKeyAcmeTable }
        { email := some "jane@".toList }).updateData = [] ∧
      (enrich { sampleEnv with companies := emptyKeyAcmeTable }
        { email := some "jane@".toList }).updateData ≠
          [("company", "Acme Corp".toList), ("industry", "Tech".toList),
           ("city", "San Francisco".toList)]) ∧
    (sigmaTable (sigmaLower ['Σ']) = some acmeProfile ∧
      sigmaTable ("www.".toList ++ sigmaLower ['Σ']) = none ∧
      sigmaLower ("www.".toList ++ ['Σ']) = "www.".toList ++ ['ς'] ∧
      (enrich { sampleEnv with companies := sigmaTable, toLowerCase := sigmaLower }
        { email := some ("jane@".toList ++ ['Σ']) }).updateData =
          [("company", "Acme Corp".toList), ("industry", "Tech".toList),
           ("city", "San Francisco".toList)] ∧
      (enrich { sampleEnv with companies := sigmaTable, toLowerCase := sigmaLower }
        { email := some ("bob@www.".toList ++ ['Σ']) }).updateData = []) := by
  refine ⟨⟨by decide, by decide, by decide, by decide, by decide⟩,
    ⟨by decide, by decide, by decide, by decide, by decide⟩⟩

/-- C14, amended. Let the table map the lower-cased `D` to a profile with
non-empty name `n`, non-empty industry `i` and location `c,rest` where `c` has
no comma. For the e-mail `L@D` with one `@` and a non-empty lower-cased `D` the
payload is company `n`, industry `i`, city `c` trimmed. For the e-mail
`L@www.D` the payload is the same, when lower-casing `www.D` gives `www.`
followed by the lower-cased `D`, and that is not a key. -/
theorem enrich_company_end_to_end (env : Env) (contact : Contact) (L D n i c rest : Str)
    (p : CompanyProfile)
    (hL : '@' ∉ L) (hD : '@' ∉ D)
    (hkey : env.companies (env.toLowerCase D) = some p)
    (hname : p.name = some n) (hindustry : p.industry = some i)
    (hlocation : p.location = some (c ++ ',' :: rest))
    (hn : n ≠ []) (hi : i ≠ []) (hc : ',' ∉ c) :
    (env.toLowerCase D ≠ [] → contact.email = some (L ++ '@' :: D) →
      (enrich env contact).updateData =
        [("company", n), ("industry", i), ("city", trim c)]) ∧
    (env.toLowerCase ("www.".toList ++ D) = "www.".toList ++ env.toLowerCase D →
      env.companies ("www.".toList ++ env.toLowerCase D) = none →
      contact.email = some (L ++ '@' :: ("www.".toList ++ D)) →
      (enrich env contact).updateData =
        [("company", n), ("industry", i), ("city", trim c)]) := by
  have hpayload : (enrich env contact).updateData =
      buildUpdateData (enrichCompanyData env.companies
        (extractDomain env.toLowerCase contact.email)) := rfl
  constructor
  · intro hne hemail
    rw [hpayload, hemail, extractDomain_of_one_at _ _ _ hL hD,
      enrichCompanyData_of_key _ _ _ hne hkey]
    exact buildUpdateData_full p n i c rest hname hindustry hlocation hn hi hc
  · intro hlower hnokey hemail
    have hwD : '@' ∉ "www.".toList ++ D := by
      intro hmem
      rcases List.mem_append.mp hmem with h | h
      · exact absurd h (by decide)
      · exact hD h
    rw [hpayload, hemail, extractDomain_of_one_at _ _ _ hL hwD, hlower,
      enrichCompanyData_of_www_key _ _ _ hnokey hkey]
    exact buildUpdateData_full p n i c rest hname hindustry hlocation hn hi hc

/-- C14 amended, at scenarios 1 and 2: `jane@acme.com` and `bob@www.acme.com`
both give company `Acme Corp`, industry `Tech`, city `San Francisco`. -/
theorem enrich_company_end_to_end_witness :
    (enrich sampleEnv { email := some "jane@acme.com".toList }).updateData =
      [("company", "Acme Corp".toList), ("industry", "Tech".toList),
       ("city", "San Francisco".toList)] ∧
    (enrich sampleEnv { email := some "bob@www.acme.com".toList }).updateData =
      [("company", "Acme Corp".toList), ("industry", "Tech".toList),
       ("city", "San Francisco".toList)] :=
  ⟨(enrich_company_end_to_end sampleEnv { email := some "jane@acme.com".toList }
      "jane".toList "acme.com".toList "Acme Corp".toList "Tech".toList
      "San Francisco".toList " CA".toList acmeProfile
      (by decide) (by decide) (by decide) rfl rfl rfl (by decide) (by decide) (by decide)).1
      (by decide) rfl,
   (enrich_company_end_to_end sampleEnv { email := some "bob@www.acme.com".toList }
      "bob".toList "acme.com".toList "Acme Corp".toList "Tech".toList
      "San Francisco".toList " CA".toList acmeProfile
      (by decide) (by decide) (by decide) rfl rfl rfl (by decide) (by decide) (by decide)).2
      (by decide) (by decide) rfl⟩

/-- C15, the counterexample. The domain `unknown.io` resolves to no company and
the title `VP and Manager` matches the pattern with keyword `vp`, whose labels
`VP` and `Executive` are not empty; the pattern with keyword `manager` stands
before it and matches too, so the note reports `Manager` and `General` and does
not contain `Seniority: VP, Department: Executive`. The payload is empty. -/
theorem enrich_note_reports_first_match :
    acmeTable "unknown.io".toList = none ∧
    acmeTable (replace "www.".toList [] "unknown.io".toList) = none ∧
    inheritedProperty "unknown.io".toList = none ∧
    samplePatterns.get? 1 =
      some ⟨["vice president".toList, "vp".toList], "VP".toList, "Executive".toList⟩ ∧
    includes (List.map Char.toLower "VP and Manager".toList) "vp".toList = true ∧
    (enrich sampleEnv { email := some "x@unknown.io".toList,
                        jobtitle := some "VP and Manager".toList }).updateData = [] ∧
    (enrich sampleEnv { email := some "x@unknown.io".toList,
                        jobtitle := some "VP and Manager".toList }).enrichmentNote =
      ("Enriched on 2024-01-15. Seniority: Manager, Department: General, " ++
        "Company Size: Unknown").toList ∧
    includes
      (enrich sampleEnv { email := some "x@unknown.io".toList,
                          jobtitle := some "VP and Manager".toList }).enrichmentNote
      "Seniority: VP, Department: Executive".toList = false := by
  refine ⟨by decide, by decide, by decide, by decide, by decide, by decide, by decide,
    by decide⟩

/-- C15, amended. When the e-mail of the record gives no domain, or a domain
such that neither it nor the domain with `www.` removed is a key of the table or
the name of a property inherited from `Object.prototype`, and the job title is not empty and the first pattern with a keyword occurring in
the lower-cased title has non-empty labels `s` and `p`, then the payload is
empty, `hasUpdates` is false and the note contains `Seniority: s, Department: p`. -/
theorem enrich_classification_without_company (env : Env) (contact : Contact) (title : Str)
    (i : Nat) (p : TitlePattern)
    (hres : ∀ d : Str, extractDomain env.toLowerCase contact.email = some d →
      (env.companies d = none ∧ inheritedProperty d = none) ∧
      (env.companies (replace "www.".toList [] d) = none ∧
        inheritedProperty (replace "www.".toList [] d) = none))
    (hjob : contact.jobtitle = some title) (htitle : title ≠ [])
    (hp : env.patterns.get? i = some p)
    (hhit : p.hits (env.toLowerCase title))
    (hmin : ∀ (j : Nat) (q : TitlePattern), j < i → env.patterns.get? j = some q →
      ¬ q.hits (env.toLowerCase title))
    (hs : p.seniority ≠ []) (hd : p.department ≠ []) :
    (enrich env contact).updateData = [] ∧
    (enrich env contact).hasUpdates = false ∧
    ("Seniority: ".toList ++ p.seniority ++ ", Department: ".toList ++ p.department)
      <:+: (enrich env contact).enrichmentNote := by
  have hcompany : (enrich env contact).companyData = {} :=
    enrichCompanyData_of_no_key env.companies _ (fun d hd =>
      ⟨readCompany_eq_none _ _ (hres d hd).1.1 (hres d hd).1.2,
       readCompany_eq_none _ _ (hres d hd).2.1 (hres d hd).2.2⟩)
  have hpayload : (enrich env contact).updateData = [] := by
    have h : (enrich env contact).updateData =
        buildUpdateData (enrich env contact).companyData := rfl
    rw [h, hcompany]
    rfl
  have hjobData : (enrich env contact).jobData =
      some { seniority := p.seniority, department := p.department } := by
    have h : (enrich env contact).jobData =
        enrichJobTitle env.toLowerCase env.patterns (some (orElse contact.jobtitle [])) := rfl
    rw [h, hjob, orElse_of_ne_nil _ _ htitle]
    cases title with
    | nil => exact absurd rfl htitle
    | cons c cs =>
      rw [enrichJobTitle_some_cons]
      exact scanPatterns_first_hit _ env.patterns i p hp hhit hmin
  refine ⟨hpayload, ?_, ?_⟩
  · simp [Enrichment.hasUpdates, hpayload, Obj.keys]
  · have hnote : (enrich env contact).enrichmentNote =
        buildEnrichmentNote env.isoNow (enrich env contact).jobData
          (enrich env contact).companyData := rfl
    rw [hnote, hjobData]
    exact note_of_labels env.isoNow { seniority := p.seniority, department := p.department }
      _ hs hd

/-- C15 amended, at scenario 3: e-mail `x@unknown.io`, job title `VP of Sales`;
the first matching pattern is the one with keyword `vp`. -/
theorem enrich_classification_without_company_witness :
    (enrich sampleEnv { email := some "x@unknown.io".toList,
                        jobtitle := some "VP of Sales".toList }).updateData = [] ∧
    (enrich sampleEnv { email := some "x@unknown.io".toList,
                        jobtitle := some "VP of Sales".toList }).hasUpdates = false ∧
    ("Seniority: ".toList ++ "VP".toList ++ ", Department: ".toList ++ "Executive".toList)
      <:+: (enrich sampleEnv { email := some "x@unknown.io".toList,
                               jobtitle := some "VP of Sales".toList }).enrichmentNote :=
  enrich_classification_without_company sampleEnv
    { email := some "x@unknown.io".toList, jobtitle := some "VP of Sales".toList }
    "VP of Sales".toList 1
    ⟨["vice president".toList, "vp".toList], "VP".toList, "Executive".toList⟩
    (by
      intro d hd
      have hdom : extractDomain sampleEnv.toLowerCase (some "x@unknown.io".toList) =
          some "unknown.io".toList := by decide
      have hd2 : d = "unknown.io".toList := Option.some.inj (hdom.symm.trans hd).symm
      subst hd2
      exact ⟨⟨by decide, by decide⟩, ⟨by decide, by decide⟩⟩)
    rfl (by decide) rfl
    ⟨"vp".toList, by decide, (includes_iff _ _).mp (by decide)⟩
    (by
      intro j q hj hq
      have hj0 : j = 0 := by omega
      subst hj0
      have hq0 : q = ⟨["manager".toList], "Manager".toList, "General".toList⟩ :=
        (Option.some.inj hq).symm
      subst hq0
      rintro ⟨kw, hmem, hinf⟩
      have hkw : kw = "manager".toList := List.mem_singleton.mp hmem
      subst hkw
      have hfalse : includes (sampleEnv.toLowerCase "VP of Sales".toList) "manager".toList
          = false := by decide
      rw [(includes_iff _ _).mpr hinf] at hfalse
      exact Bool.noConfusion hfalse)
    (by decide) (by decide)
/-- C16. When `www.` is not a key of the table and the empty string is, the
domain `www.` resolves to the entry stored under the empty string. -/
theorem enrichCompanyData_www_only (companies : CompanyTable) (p : CompanyProfile)
    (hwww : companies "www.".toList = none) (hempty : companies [] = some p) :
    enrichCompanyData companies (some "www.".toList) = p := by
  have hrep : replace "www.".toList [] ('w' :: "ww.".toList) = [] := by decide
  have hcons : "www.".toList = 'w' :: "ww.".toList := rfl
  have hread : readCompany companies "www.".toList = none :=
    readCompany_eq_none _ _ hwww (by decide)
  rw [hcons] at hread ⊢
  rw [enrichCompanyData_some_cons, hread, hrep, readCompany_of_own _ _ _ hempty]

/-- C16 at the table whose only key is the empty string. -/
theorem enrichCompanyData_www_only_witness :
    emptyKeyTable "www.".toList = none ∧
    (emptyKeyTable []).isSome = true ∧
    enrichCompanyData emptyKeyTable (some "www.".toList)
      = { name := some "Nameless Ltd".toList } :=
  ⟨by decide, by decide,
   enrichCompanyData_www_only emptyKeyTable { name := some "Nameless Ltd".toList }
     (by decide) (by decide)⟩

/-- C17. The three helper functions are total: each has a result for every
input; the only operation in them that could raise, the method call on
`parts[1]` in `extractDomain`, is never reached with `parts[1]` undefined; and
missing or malformed input gives `null` or `{}`: an absent or empty e-mail, an
e-mail whose number of `@` is not one, an absent or empty domain, an absent or
empty job title. -/
theorem helpers_total :
    (∀ (toLowerCase : Str → Str) (email : Option Str),
      extractDomainChecked toLowerCase email = .ok (extractDomain toLowerCase email)) ∧
    (∀ (toLowerCase : Str → Str) (email : Option Str),
      ∃ domain : Option Str, extractDomain toLowerCase email = domain) ∧
    (∀ (companies : CompanyTable) (domain : Option Str),
      ∃ profile : CompanyProfile, enrichCompanyData companies domain = profile) ∧
    (∀ (toLowerCase : Str → Str) (patterns : List TitlePattern) (jobTitle : Option Str),
      ∃ jobData : JobData, enrichJobTitle toLowerCase patterns jobTitle = jobData) ∧
    (∀ toLowerCase : Str → Str,
      extractDomain toLowerCase none = none ∧ extractDomain toLowerCase (some []) = none) ∧
    (∀ (toLowerCase : Str → Str) (email : Str), email.count '@' ≠ 1 →
      extractDomain toLowerCase (some email) = none) ∧
    (∀ companies : CompanyTable,
      enrichCompanyData companies none = {} ∧ enrichCompanyData companies (some []) = {}) ∧
    (∀ (toLowerCase : Str → Str) (patterns : List TitlePattern),
      enrichJobTitle toLowerCase patterns none = none ∧
      enrichJobTitle toLowerCase patterns (some []) = none) := by
  refine ⟨extractDomainChecked_ok, fun _ _ => ⟨_, rfl⟩, fun _ _ => ⟨_, rfl⟩,
    fun _ _ _ => ⟨_, rfl⟩, ?_, ?_, ?_, ?_⟩
  · intro toLowerCase
    simp [extractDomain, truthy]
  · intro toLowerCase email hcount
    have hl : (split '@' email).length ≠ 2 := by
      rw [split_length]
      omega
    cases email with
    | nil => simp [extractDomain, truthy]
    | cons c cs => simp [extractDomain, truthy, hl]
  · intro companies
    simp [enrichCompanyData, truthy]
  · intro toLowerCase patterns
    simp [enrichJobTitle, truthy]

/-- C17 at the malformed e-mail `a@b@c`. -/
theorem helpers_total_witness :
    "a@b@c".toList.count '@' ≠ 1 ∧
    extractDomain (List.map Char.toLower) (some "a@b@c".toList) = none ∧
    extractDomainChecked (List.map Char.toLower) (some "a@b@c".toList) = .ok none :=
  ⟨by decide,
   helpers_total.2.2.2.2.2.1 (List.map Char.toLower) "a@b@c".toList (by decide),
   rfl⟩

/-- C18. Two runs over the same record, the same tables and the same
lower-casing, at any two clock readings and with any record store: domain,
company data, classification, payload and `hasUpdates` are equal, and the two
notes are the words `Enriched on`, the day of the run, and one common remainder. -/
theorem enrich_deterministic (companies : CompanyTable) (patterns : List TitlePattern)
    (toLowerCase : Str → Str) (now₁ now₂ : Str)
    (getById₁ getById₂ : Str → List String → Except Str Contact)
    (update₁ update₂ : Str → Obj → Except Str Unit) (contact : Contact) :
    (enrich ⟨companies, patterns, toLowerCase, now₁, getById₁, update₁⟩ contact).updateData =
      (enrich ⟨companies, patterns, toLowerCase, now₂, getById₂, update₂⟩ contact).updateData ∧
    (enrich ⟨companies, patterns, toLowerCase, now₁, getById₁, update₁⟩ contact).hasUpdates =
      (enrich ⟨companies, patterns, toLowerCase, now₂, getById₂, update₂⟩ contact).hasUpdates ∧
    (enrich ⟨companies, patterns, toLowerCase, now₁, getById₁, update₁⟩ contact).domain =
      (enrich ⟨companies, patterns, toLowerCase, now₂, getById₂, update₂⟩ contact).domain ∧
    (enrich ⟨companies, patterns, toLowerCase, now₁, getById₁, update₁⟩ contact).companyData =
      (enrich ⟨companies, patterns, toLowerCase, now₂, getById₂, update₂⟩ contact).companyData ∧
    (enrich ⟨companies, patterns, toLowerCase, now₁, getById₁, update₁⟩ contact).jobData =
      (enrich ⟨companies, patterns, toLowerCase, now₂, getById₂, update₂⟩ contact).jobData ∧
    ∃ rest : Str,
      (enrich ⟨companies, patterns, toLowerCase, now₁, getById₁, update₁⟩ contact).enrichmentNote =
        "Enriched on ".toList ++ (split 'T' now₁).headD [] ++ rest ∧
      (enrich ⟨companies, patterns, toLowerCase, now₂, getById₂, update₂⟩ contact).enrichmentNote =
        "Enriched on ".toList ++ (split 'T' now₂).headD [] ++ rest := by
  refine ⟨rfl, rfl, rfl, rfl, rfl, ?_⟩
  refine ⟨". ".toList ++ "Seniority: ".toList ++
    orElse ((enrich ⟨companies, patterns, toLowerCase, now₁, getById₁, update₁⟩
      contact).jobData.map Labels.seniority) "Unknown".toList ++ ", ".toList ++
    "Department: ".toList ++
    orElse ((enrich ⟨companies, patterns, toLowerCase, now₁, getById₁, update₁⟩
      contact).jobData.map Labels.department) "Unknown".toList ++ ", ".toList ++
    "Company Size: ".toList ++
    orElse (enrich ⟨companies, patterns, toLowerCase, now₁, getById₁, update₁⟩
      contact).companyData.size "Unknown".toList, ?_, ?_⟩
  · simp [enrich, buildEnrichmentNote]
  · simp [enrich, buildEnrichmentNote]

/-- C19, the failing input. The profile with location `, CA` obeys the data
model, yet for the e-mail `jane@acme.com` the payload is the single key `city`
with the empty string as value, `hasUpdates` is true and the empty city is sent
to the record store. The values written for `company` and `industry` are never
empty. -/
theorem enrich_writes_empty_city :
    (({ location := some ", CA".toList } : CompanyProfile).name ≠ some [] ∧
     ({ location := some ", CA".toList } : CompanyProfile).industry ≠ some [] ∧
     ({ location := some ", CA".toList } : CompanyProfile).size ≠ some [] ∧
     ({ location := some ", CA".toList } : CompanyProfile).location ≠ some []) ∧
    (enrich { sampleEnv with companies := commaTable }
      { email := some "jane@acme.com".toList }).updateData = [("city", [])] ∧
    (enrich { sampleEnv with companies := commaTable }
      { email := some "jane@acme.com".toList }).hasUpdates = true ∧
    (invoke { sampleEnv with companies := commaTable } (some "42".toList)).2 =
      [.getById "42".toList requestedProperties, .update "42".toList [("city", [])]] ∧
    (∀ (p : CompanyProfile) (v : Str), (buildUpdateData p).get "company" = some v → v ≠ []) ∧
    (∀ (p : CompanyProfile) (v : Str), (buildUpdateData p).get "industry" = some v → v ≠ []) := by
  refine ⟨⟨by decide, by decide, by decide, by decide⟩, by decide, by decide, by decide,
    buildUpdateData_company_ne_nil, buildUpdateData_industry_ne_nil⟩

/-- C20. The two inference paths do not interfere: two records with the same
e-mail get the same payload and the same `hasUpdates`, whatever their job titles
and other fields; two records with the same job title get the same
classification, hence the same seniority and department in the response and in
the note, whatever their e-mails. Tables and lower-casing are shared, clock and
record store need not be. -/
theorem enrich_paths_independent (companies : CompanyTable) (patterns : List TitlePattern)
    (toLowerCase : Str → Str) (now₁ now₂ : Str)
    (getById₁ getById₂ : Str → List String → Except Str Contact)
    (update₁ update₂ : Str → Obj → Except Str Unit) (c₁ c₂ : Contact) :
    (c₁.email = c₂.email →
      (enrich ⟨companies, patterns, toLowerCase, now₁, getById₁, update₁⟩ c₁).updateData =
        (enrich ⟨companies, patterns, toLowerCase, now₂, getById₂, update₂⟩ c₂).updateData ∧
      (enrich ⟨companies, patterns, toLowerCase, now₁, getById₁, update₁⟩ c₁).hasUpdates =
        (enrich ⟨companies, patterns, toLowerCase, now₂, getById₂, update₂⟩ c₂).hasUpdates) ∧
    (c₁.jobtitle = c₂.jobtitle →
      (enrich ⟨companies, patterns, toLowerCase, now₁, getById₁, update₁⟩ c₁).jobData =
        (enrich ⟨companies, patterns, toLowerCase, now₂, getById₂, update₂⟩ c₂).jobData ∧
      orElse ((enrich ⟨companies, patterns, toLowerCase, now₁, getById₁, update₁⟩
          c₁).jobData.map Labels.seniority) "Unknown".toList =
        orElse ((enrich ⟨companies, patterns, toLowerCase, now₂, getById₂, update₂⟩
          c₂).jobData.map Labels.seniority) "Unknown".toList ∧
      orElse ((enrich ⟨companies, patterns, toLowerCase, now₁, getById₁, update₁⟩
          c₁).jobData.map Labels.department) "Unknown".toList =
        orElse ((enrich ⟨companies, patterns, toLowerCase, now₂, getById₂, update₂⟩
          c₂).jobData.map Labels.department) "Unknown".toList) := by
  constructor
  · intro hemail
    simp [enrich, Enrichment.hasUpdates, hemail]
  · intro hjob
    simp [enrich, hjob]

/-- C20 at two records with the e-mail `jane@acme.com`, one a `VP of Sales`
with a name and a city on file, the other without job title: same payload; and
at two records with the job title `VP of Sales` and different e-mails: same
classification. -/
theorem enrich_paths_independent_witness :
    ((enrich sampleEnv { email := some "jane@acme.com".toList,
                         jobtitle := some "VP of Sales".toList,
                         firstname := some "Jane".toList,
                         city := some "Oakland".toList }).updateData =
       (enrich sampleEnv { email := some "jane@acme.com".toList }).updateData ∧
     (enrich sampleEnv { email := some "jane@acme.com".toList,
                         jobtitle := some "VP of Sales".toList,
                         firstname := some "Jane".toList,
                         city := some "Oakland".toList }).hasUpdates =
       (enrich sampleEnv { email := some "jane@acme.com".toList }).hasUpdates) ∧
    (enrich sampleEnv { email := some "jane@acme.com".toList,
                        jobtitle := some "VP of Sales".toList }).jobData =
      (enrich sampleEnv { email := some "x@unknown.io".toList,
                          jobtitle := some "VP of Sales".toList }).jobData :=
  ⟨(enrich_paths_independent acmeTable samplePatterns (List.map Char.toLower)
      "2024-01-15T10:20:30.000Z".toList "2024-01-15T10:20:30.000Z".toList
      sampleEnv.getById sampleEnv.getById sampleEnv.update sampleEnv.update
      { email := some "jane@acme.com".toList, jobtitle := some "VP of Sales".toList,
        firstname := some "Jane".toList, city := some "Oakland".toList }
      { email := some "jane@acme.com".toList }).1 rfl,
   ((enrich_paths_independent acmeTable samplePatterns (List.map Char.toLower)
      "2024-01-15T10:20:30.000Z".toList "2024-01-15T10:20:30.000Z".toList
      sampleEnv.getById sampleEnv.getById sampleEnv.update sampleEnv.update
      { email := some "jane@acme.com".toList, jobtitle := some "VP of Sales".toList }
      { email := some "x@unknown.io".toList, jobtitle := some "VP of Sales".toList }).2 rfl).1⟩

end EnrichContact
